import Mathlib

/-!
Shallow embedding of `gimbal_lib.py` (2-axis gimbal controller, AZ/EL).

Python floats are modelled as rationals (`ℚ`), `int(round x)` as banker's
rounding (`pyRound`), controller counts as `ℤ`.  Interaction with the Galil
controller is modelled by an environment `Env : ℕ → Resp` giving, for the
n-th raw `GCommand` exchange of a run, either a successful (already parsed)
response `Resp.ok vals` or a raised `gclib` error `Resp.err`.  A machine
state `Mach` carries the controller object state (`GState`, the fields
`curr_az`, `curr_el`, `curr_pos`, `streaming`, `sim`, and the counts/degree
calibration), the trace `tr` of protocol commands issued so far, and the
index `k` of the next environment slot.  Operations that can let an
exception escape return `Option` (`none` = exception propagated), paired
with the machine state at the moment of the raise.
-/

namespace Gimbal

/-- Banker's rounding of a rational: Python's `int(round(x))` on a float
(round half to even). -/
def pyRound (q : ℚ) : ℤ :=
  let f := ⌊q⌋
  let r := q - (f : ℚ)
  if r < 1/2 then f
  else if (1:ℚ)/2 < r then f + 1
  else if f % 2 = 0 then f else f + 1

/-- `_clip(v, lo, hi) = max(lo, min(hi, v))` (gimbal_lib.py line 46). -/
def clip (v lo hi : ℚ) : ℚ := max lo (min hi v)

/-- `AZ_MIN` (gimbal_lib.py line 29). -/
def AZ_MIN : ℚ := -90
/-- `AZ_MAX` (line 29). -/
def AZ_MAX : ℚ := 90
/-- `EL_MIN` (line 30). -/
def EL_MIN : ℚ := -90
/-- `EL_MAX` (line 30). -/
def EL_MAX : ℚ := 90
/-- `MIN_PR_COUNTS = 10`, deadband to avoid tiny moves (line 35). -/
def MIN_PR_COUNTS : ℤ := 10
/-- `MIN_PA_DELTA = 6`, counts; ignore microscopic PA updates in PT (line 36). -/
def MIN_PA_DELTA : ℚ := 6

/-- Protocol commands issued through `_cmd` (one line per transmission). -/
inductive Cmd where
  | ST
  | PTon
  | PToff
  | BG
  | TPX
  | TPY
  | MG
  | TC
  | PA (x y : ℤ)
  | PR (x y : ℤ)
deriving DecidableEq, Repr

/-- Outcome of one raw `GCommand` exchange: a successful response whose
numeric payload is already parsed, or a raised `GclibError`. -/
inductive Resp where
  | ok (vals : List ℚ)
  | err
deriving DecidableEq, Repr

/-- The controller/hardware behaviour: the response of the n-th exchange. -/
abbrev Env := ℕ → Resp

/-- The mutable object state of `GimbalController`. -/
structure GState where
  curr_az : ℚ
  curr_el : ℚ
  curr_pos : ℚ × ℚ × ℚ
  streaming : Bool
  sim : Bool
  cnt_az : ℚ
  cnt_el : ℚ
deriving DecidableEq, Repr

/-- Machine state threaded through a run: object state, the trace of
commands issued so far, and the next environment slot. -/
structure Mach where
  s : GState
  tr : List Cmd
  k : ℕ
deriving DecidableEq, Repr

/-- `_cmd` (lines 142-160): send one command; on a `GclibError` a `TC`
diagnostic follow-up is attempted and the error is re-raised (`none`). -/
def cmdStep (env : Env) (c : Cmd) (m : Mach) : Option (List ℚ) × Mach :=
  match env m.k with
  | .ok vs => (some vs, { m with tr := m.tr ++ [c], k := m.k + 1 })
  | .err => (none, { m with tr := m.tr ++ [c, .TC], k := m.k + 2 })

/-- `self.streaming = False`. -/
def setStreamingFalse (m : Mach) : Mach :=
  { m with s := { m.s with streaming := false } }

/-- `_enter_pt` (lines 163-172): `ST` then `PT 1,1`; on any failure the
exception is swallowed and `self.streaming` is set to `False`. -/
def enterPt (env : Env) (m : Mach) : Mach :=
  match cmdStep env .ST m with
  | (some _, m1) =>
    match cmdStep env .PTon m1 with
    | (some _, m2) => m2
    | (none, m2) => setStreamingFalse m2
  | (none, m1) => setStreamingFalse m1

/-- `_exit_pt` (lines 174-181): `ST` then `PT 0,0`; failures are swallowed;
note that `self.streaming` is NOT modified. -/
def exitPt (env : Env) (m : Mach) : Mach :=
  match cmdStep env .ST m with
  | (some _, m1) => (cmdStep env .PToff m1).2
  | (none, m1) => m1

/-- The in-position test of `_wait_inpos` (line 272): the response has at
least two values and both of the first two are `>= 1`. -/
def inposMet (vs : List ℚ) : Bool :=
  decide (2 ≤ vs.length) && (vs.take 2).all (fun x => decide ((1:ℚ) ≤ x))

/-- `_wait_inpos` (lines 263-277): poll `MG _TNX,_TNY` until both flags are
`>= 1`; query failures are swallowed and polling continues; `false` on
timeout (the timeout is modelled as loop fuel). -/
def waitInpos (env : Env) : ℕ → Mach → Bool × Mach
  | 0, m => (false, m)
  | n+1, m =>
    match cmdStep env .MG m with
    | (some vs, m1) => if inposMet vs then (true, m1) else waitInpos env n m1
    | (none, m1) => waitInpos env n m1

/-- `_wait_settle_counts` (lines 279-293): poll `TP X`, `TP Y` until both
axes are within `tol` of the target counts; failures (of the exchange or of
the float parse, modelled as an empty response) are swallowed; `false` on
timeout. -/
def waitSettleCounts (env : Env) (tx ty : ℤ) (tol : ℚ) : ℕ → Mach → Bool × Mach
  | 0, m => (false, m)
  | n+1, m =>
    match cmdStep env .TPX m with
    | (some vs, m1) =>
      match vs.head? with
      | some cx =>
        match cmdStep env .TPY m1 with
        | (some ws, m2) =>
          match ws.head? with
          | some cy =>
            if |cx - (tx : ℚ)| ≤ tol ∧ |cy - (ty : ℚ)| ≤ tol then (true, m2)
            else waitSettleCounts env tx ty tol n m2
          | none => waitSettleCounts env tx ty tol n m2
        | (none, m2) => waitSettleCounts env tx ty tol n m2
      | none => waitSettleCounts env tx ty tol n m1
    | (none, m1) => waitSettleCounts env tx ty tol n m1

/-- The guarded `TP X` / `TP Y` read pair of `_send_absolute_counts`
(lines 332-336): on any failure both readings become `None`. -/
def tpReadPair (env : Env) (m : Mach) : Option (ℚ × ℚ) × Mach :=
  match cmdStep env .TPX m with
  | (some vs, m1) =>
    match vs.head? with
    | some cx =>
      match cmdStep env .TPY m1 with
      | (some ws, m2) =>
        match ws.head? with
        | some cy => (some (cx, cy), m2)
        | none => (none, m2)
      | (none, m2) => (none, m2)
    | none => (none, m1)
  | (none, m1) => (none, m1)

/-- The `PA`-only tail of the streaming branch of `_send_absolute_counts`
(lines 342-345): `PA x,y` (uncaught), then an optional settle wait. -/
def paThenSettle (env : Env) (fuel : ℕ) (tx ty : ℤ) (wait : Bool) (m : Mach) :
    Option Bool × Mach :=
  match cmdStep env (.PA tx ty) m with
  | (none, m1) => (none, m1)
  | (some _, m1) =>
    let m2 := if wait then (waitSettleCounts env tx ty 30 fuel m1).2 else m1
    (some true, m2)

/-- The classic tail of `_send_absolute_counts` (lines 347-352): `PA x,y`,
`BG XY` (both uncaught), then an optional in-position wait. -/
def paThenBG (env : Env) (fuel : ℕ) (tx ty : ℤ) (wait : Bool) (m : Mach) :
    Option Bool × Mach :=
  match cmdStep env (.PA tx ty) m with
  | (none, m1) => (none, m1)
  | (some _, m1) =>
    match cmdStep env .BG m1 with
    | (none, m2) => (none, m2)
    | (some _, m2) =>
      let m3 := if wait then (waitInpos env fuel m2).2 else m2
      (some true, m3)

/-- `_send_absolute_counts` (lines 324-352).  While `self.streaming` is set:
read back `TP X` / `TP Y`, drop the update when both deltas are below
`MIN_PA_DELTA`, else `PA` with no `BG`.  Otherwise the classic `PA` + `BG`
path. -/
def sendAbsoluteCounts (env : Env) (fuel : ℕ) (tx ty : ℤ) (wait : Bool)
    (m : Mach) : Option Bool × Mach :=
  if m.s.streaming then
    match tpReadPair env m with
    | (some (cx, cy), m1) =>
      if |(tx:ℚ) - cx| < MIN_PA_DELTA ∧ |(ty:ℚ) - cy| < MIN_PA_DELTA then
        (some false, m1)
      else paThenSettle env fuel tx ty wait m1
    | (none, m1) => paThenSettle env fuel tx ty wait m1
  else paThenBG env fuel tx ty wait m

/-- The `PR` + `BG` tail of `_send_relative_counts` (lines 312-322): `PR`
then `BG XY` (both uncaught), optional in-position wait, then PT re-entry
when the call found streaming set. -/
def prThenBG (env : Env) (fuel : ℕ) (prx pry : ℤ) (wait wasPt : Bool)
    (m1 : Mach) : Option Bool × Mach :=
  match cmdStep env (.PR prx pry) m1 with
  | (none, m2) => (none, m2)
  | (some _, m2) =>
    match cmdStep env .BG m2 with
    | (none, m3) => (none, m3)
    | (some _, m3) =>
      let m4 := if wait then (waitInpos env fuel m3).2 else m3
      let m5 := if wasPt then enterPt env m4 else m4
      (some true, m5)

/-- `_send_relative_counts` (lines 296-322): deadband on both axes, zeros
for non-moving axes, transient PT exit around `PR` + `BG`, optional
in-position wait, transient PT re-entry. -/
def sendRelativeCounts (env : Env) (fuel : ℕ) (dx dy : ℤ) (wait : Bool)
    (m : Mach) : Option Bool × Mach :=
  let mvx : Bool := decide (MIN_PR_COUNTS ≤ |dx|)
  let mvy : Bool := decide (MIN_PR_COUNTS ≤ |dy|)
  if mvx || mvy then
    let prx : ℤ := if mvx then dx else 0
    let pry : ℤ := if mvy then dy else 0
    let wasPt := m.s.streaming
    let m1 := if wasPt then exitPt env m else m
    prThenBG env fuel prx pry wait wasPt m1
  else (some false, m)

/-- `self.curr_az, self.curr_el = a, e; self.curr_pos = [a, e, 0.0]`. -/
def setPos (a e : ℚ) (m : Mach) : Mach :=
  { m with s := { m.s with curr_az := a, curr_el := e, curr_pos := (a, e, 0) } }

/-- `self.curr_pos = [self.curr_az, self.curr_el, 0.0]` (line 456). -/
def setPosOnly (m : Mach) : Mach :=
  { m with s := { m.s with curr_pos := (m.s.curr_az, m.s.curr_el, 0) } }

/-- `move_absolute` (lines 355-387). -/
def moveAbsolute (env : Env) (fuel : ℕ) (azDeg elSkyDeg : ℚ) (wait : Bool)
    (m : Mach) : Option Unit × Mach :=
  let targetAz := clip azDeg AZ_MIN AZ_MAX
  let targetEl := clip (elSkyDeg - 90) EL_MIN EL_MAX
  if m.s.sim then (some (), setPos targetAz targetEl m)
  else
    let ccx := pyRound (m.s.curr_az * m.s.cnt_az)
    let ccy := pyRound (m.s.curr_el * m.s.cnt_el)
    let tcx := pyRound (targetAz * m.s.cnt_az)
    let tcy := pyRound (targetEl * m.s.cnt_el)
    if tcx = ccx ∧ tcy = ccy then (some (), m)
    else
      let wasPt := m.s.streaming
      let m1 := if wasPt then exitPt env m else m
      match sendAbsoluteCounts env fuel tcx tcy wait m1 with
      | (none, m2) => (none, m2)
      | (some _, m2) =>
        let m3 := if wasPt then enterPt env m2 else m2
        (some (), setPos targetAz targetEl m3)

/-- `move_relative` (lines 389-406). -/
def moveRelative (env : Env) (fuel : ℕ) (dAz dElSky : ℚ) (wait : Bool)
    (m : Mach) : Option Unit × Mach :=
  let newAz := clip (m.s.curr_az + dAz) AZ_MIN AZ_MAX
  let newEl := clip (m.s.curr_el + dElSky) EL_MIN EL_MAX
  if m.s.sim then (some (), setPos newAz newEl m)
  else
    let dx := pyRound ((newAz - m.s.curr_az) * m.s.cnt_az)
    let dy := pyRound ((newEl - m.s.curr_el) * m.s.cnt_el)
    match sendRelativeCounts env fuel dx dy wait m with
    | (none, m1) => (none, m1)
    | (some true, m1) => (some (), setPos newAz newEl m1)
    | (some false, m1) => (some (), m1)

/-- `degSteer` (lines 408-456): gimbal-frame steering, absolute (streaming
`PA` path) or relative (transient PT exit around `PR` + `BG`). -/
def degSteer (env : Env) (fuel : ℕ) (azGim elGim : ℚ) (absolute wait : Bool)
    (m : Mach) : Option Unit × Mach :=
  let targetAz := clip azGim AZ_MIN AZ_MAX
  let targetEl := clip elGim EL_MIN EL_MAX
  if m.s.sim then
    if absolute then (some (), setPos targetAz targetEl m)
    else
      (some (), setPos (clip (m.s.curr_az + targetAz) AZ_MIN AZ_MAX)
        (clip (m.s.curr_el + targetEl) EL_MIN EL_MAX) m)
  else if absolute then
    let ccx := pyRound (m.s.curr_az * m.s.cnt_az)
    let ccy := pyRound (m.s.curr_el * m.s.cnt_el)
    let tcx := pyRound (targetAz * m.s.cnt_az)
    let tcy := pyRound (targetEl * m.s.cnt_el)
    if tcx = ccx ∧ tcy = ccy then (some (), m)
    else
      match sendAbsoluteCounts env fuel tcx tcy wait m with
      | (none, m1) => (none, m1)
      | (some _, m1) => (some (), setPos targetAz targetEl m1)
  else
    let dx := pyRound (targetAz * m.s.cnt_az)
    let dy := pyRound (targetEl * m.s.cnt_el)
    let wasPt := m.s.streaming
    let m1 := if wasPt then exitPt env m else m
    match sendRelativeCounts env fuel dx dy wait m1 with
    | (none, m2) => (none, m2)
    | (some moved, m2) =>
      let m3 :=
        if moved then
          { m2 with s := { m2.s with
              curr_az := clip (m2.s.curr_az + (dx : ℚ) / m2.s.cnt_az) AZ_MIN AZ_MAX,
              curr_el := clip (m2.s.curr_el + (dy : ℚ) / m2.s.cnt_el) EL_MIN EL_MAX } }
        else m2
      let m4 := if wasPt then enterPt env m3 else m3
      (some (), setPosOnly m4)

/-- `go_home` (lines 467-469): `move_absolute(0.0, 90.0, wait=wait)`. -/
def goHome (env : Env) (fuel : ℕ) (wait : Bool) (m : Mach) : Option Unit × Mach :=
  moveAbsolute env fuel 0 90 wait m

/-- `stop` (lines 459-465): best-effort `ST`; never raises; no state change. -/
def stopCmd (env : Env) (m : Mach) : Mach :=
  if m.s.sim then m else (cmdStep env .ST m).2

/-- `_safe_load_pos` (lines 50-58): a missing file is `none`; a parse
failure or a record with fewer than three fields falls back to zeros. -/
def safeLoadPos (file : Option (List ℚ)) : ℚ × ℚ × ℚ :=
  match file with
  | some (a :: b :: c :: _) => (a, b, c)
  | _ => (0, 0, 0)

/-- `_safe_save_pos` (lines 61-66) on the success path: the file now holds
the three fields of `vec3`. -/
def safeSavePos (t : ℚ × ℚ × ℚ) : Option (List ℚ) :=
  some [t.1, t.2.1, t.2.2]

/-- `close` (lines 246-260): best-effort `ST`, best-effort PT exit when
streaming, then the position flush; returns the final machine and the
persisted file contents. -/
def closeCtl (env : Env) (m : Mach) : Mach × Option (List ℚ) :=
  if m.s.sim then (m, safeSavePos m.s.curr_pos)
  else
    let m1 := (cmdStep env .ST m).2
    let m2 := if m1.s.streaming then exitPt env m1 else m1
    (m2, safeSavePos m2.s.curr_pos)

/-- The simulation branch of `__init__` (lines 80-90): `curr_az`, `curr_el`
start at `0.0` and `curr_pos` is loaded from the persisted file. -/
def initSimState (file : Option (List ℚ)) (streaming : Bool) (ca ce : ℚ) : GState :=
  { curr_az := 0, curr_el := 0, curr_pos := safeLoadPos file,
    streaming := streaming, sim := true, cnt_az := ca, cnt_el := ce }

/-- Connection strings are modelled as character lists. -/
abbrev Str := List Char

/-- Drop leading whitespace. -/
def dropWs : Str → Str
  | [] => []
  | c :: r => if c.isWhitespace then dropWs r else c :: r

/-- Python `str.strip()`: drop leading and trailing whitespace. -/
def trimStr (s : Str) : Str := (dropWs (dropWs s.reverse).reverse)

/-- Worker for `splitWs`, accumulating the current word reversed. -/
def splitWsAux : Str → Str → List Str
  | [], acc => if acc = [] then [] else [acc.reverse]
  | c :: r, acc =>
    if c.isWhitespace then
      if acc = [] then splitWsAux r [] else acc.reverse :: splitWsAux r []
    else splitWsAux r (c :: acc)

/-- Python `str.split()` with no argument: split on whitespace runs,
discarding empty fields. -/
def splitWs (s : Str) : List Str := splitWsAux s []

/-- The `" -d"` fallback discovery suffix (line 104). -/
def dashD : Str := [' ', '-', 'd']

/-- The candidate-list construction of `__init__` (lines 94-106): the
stripped descriptor as given, then the first whitespace-separated token
(the address) if new, then the address with `" -d"` appended if new. -/
def variants (connection : Str) : List Str :=
  let s := trimStr connection
  let v1 : List Str := if s = [] then [] else [s]
  match splitWs s with
  | [] => v1
  | ipOnly :: _ =>
    let v2 := if ipOnly ∈ v1 then v1 else v1 ++ [ipOnly]
    let dd := ipOnly ++ dashD
    if dd ∈ v2 then v2 else v2 ++ [dd]

/-- Observable events of the connection loop (lines 108-129): a `GOpen`
attempt on a candidate, the best-effort `GClose` after a failure, and the
`time.sleep(0.2)` between attempts. -/
inductive ConnEv where
  | attempt (c : Str)
  | closeHandle
  | sleep200ms
deriving DecidableEq, Repr

/-- The `for cand in variants` loop (lines 109-127): `openOk i` tells
whether the i-th `GOpen` attempt succeeds.  Returns the winning candidate
(or `none`), the last failure (the candidate of the most recent failed
attempt, Python's `last_err`), and the event list. -/
def connectLoop (openOk : ℕ → Bool) : List Str → ℕ → Option Str × Option Str × List ConnEv
  | [], _ => (none, none, [])
  | c :: rest, i =>
    if openOk i then (some c, none, [.attempt c])
    else
      let r := connectLoop openOk rest (i+1)
      (r.1, some (r.2.1.getD c), .attempt c :: .closeHandle :: .sleep200ms :: r.2.2)

/-- The connection phase of `__init__` (lines 92-129): build the candidate
list, try each in order, succeed on the first that opens, and raise a
connection failure carrying the full candidate list and the last underlying
error when all are exhausted (also when the list is empty, with no last
error). -/
def gconnect (openOk : ℕ → Bool) (connection : Str) :
    Except (List Str × Option Str) (Str × List ConnEv) :=
  let vs := variants connection
  match connectLoop openOk vs 0 with
  | (some c, _, evs) => .ok (c, evs)
  | (none, le, _) => .error (vs, le)

/-- One observed iteration of the `_wait_inpos` loop, starting at
environment slot `k`: whether that poll satisfied the in-position test, and
the slot where the next iteration starts. -/
def inposStepK (env : Env) (k : ℕ) : Bool × ℕ :=
  match env k with
  | .ok vs => (inposMet vs, k + 1)
  | .err => (false, k + 2)

/-- The environment slot at which iteration `j` of the `_wait_inpos` loop
starts, when the loop starts at slot `k`. -/
def inposSlot (env : Env) (k : ℕ) : ℕ → ℕ
  | 0 => k
  | j+1 => (inposStepK env (inposSlot env k j)).2

/-- Whether iteration `j` of the `_wait_inpos` loop observes the
in-position condition. -/
def inposHit (env : Env) (k j : ℕ) : Bool :=
  (inposStepK env (inposSlot env k j)).1

/-- One observed iteration of the `_wait_settle_counts` loop starting at
slot `k`: whether both axes read back within `tol` of the target, and the
slot where the next iteration starts (a failed exchange consumes an extra
slot for the `TC` diagnostic; a failed `TP X` skips `TP Y`). -/
def settleStepK (env : Env) (tx ty : ℤ) (tol : ℚ) (k : ℕ) : Bool × ℕ :=
  match env k with
  | .err => (false, k + 2)
  | .ok vs =>
    match vs.head? with
    | none => (false, k + 1)
    | some cx =>
      match env (k+1) with
      | .err => (false, k + 3)
      | .ok ws =>
        match ws.head? with
        | none => (false, k + 2)
        | some cy => (decide (|cx - (tx:ℚ)| ≤ tol ∧ |cy - (ty:ℚ)| ≤ tol), k + 2)

/-- The environment slot at which iteration `j` of the settle loop starts. -/
def settleSlot (env : Env) (tx ty : ℤ) (tol : ℚ) (k : ℕ) : ℕ → ℕ
  | 0 => k
  | j+1 => (settleStepK env tx ty tol (settleSlot env tx ty tol k j)).2

/-- Whether iteration `j` of the settle loop observes both axes within
tolerance of the target. -/
def settleHit (env : Env) (tx ty : ℤ) (tol : ℚ) (k j : ℕ) : Bool :=
  (settleStepK env tx ty tol (settleSlot env tx ty tol k j)).1

/-- The state invariant of claim C10: both angles within the travel limits
and the position vector in sync with them. -/
def Inv (s : GState) : Prop :=
  AZ_MIN ≤ s.curr_az ∧ s.curr_az ≤ AZ_MAX ∧
  EL_MIN ≤ s.curr_el ∧ s.curr_el ≤ EL_MAX ∧
  s.curr_pos = (s.curr_az, s.curr_el, 0)

/-- Failure of `_enter_pt` as seen by the environment: the `ST` exchange
fails, or it succeeds and the `PT 1,1` exchange fails. -/
def enterPtFails (env : Env) (m : Mach) : Prop :=
  env m.k = .err ∨ (env m.k ≠ .err ∧ env (m.k + 1) = .err)

/-- The public movement operations of the controller. -/
inductive Op where
  | mvAbs (az elSky : ℚ) (wait : Bool)
  | mvRel (dAz dElSky : ℚ) (wait : Bool)
  | steer (azGim elGim : ℚ) (absolute wait : Bool)
  | home (wait : Bool)
  | halt
deriving DecidableEq, Repr

/-- Run one public movement operation (`stop` never raises, so it is
wrapped with a trivial success). -/
def runOp (env : Env) (fuel : ℕ) : Op → Mach → Option Unit × Mach
  | .mvAbs az el w, m => moveAbsolute env fuel az el w m
  | .mvRel dAz dEl w, m => moveRelative env fuel dAz dEl w m
  | .steer az el ab w, m => degSteer env fuel az el ab w m
  | .home w, m => goHome env fuel w m
  | .halt, m => (some (), stopCmd env m)

/-- An environment where every exchange succeeds and reports `0`. -/
def envOk0 : Env := fun _ => .ok [0]

/-- An environment where every exchange raises. -/
def envErr : Env := fun _ => .err

/-- A real-connection machine at the origin with streaming on and the
default calibration. -/
def mReal : Mach :=
  ⟨⟨0, 0, (0, 0, 0), true, false, 10000, 10000⟩, [], 0⟩

/-- A real-connection machine at the origin with streaming off. -/
def mClassic : Mach :=
  ⟨⟨0, 0, (0, 0, 0), false, false, 10000, 10000⟩, [], 0⟩

/-- A simulation machine at the origin. -/
def mSim : Mach :=
  ⟨⟨0, 0, (0, 0, 0), true, true, 10000, 10000⟩, [], 0⟩

/-- A simulation machine at azimuth 5, elevation 7. -/
def mSim57 : Mach :=
  ⟨⟨5, 7, (5, 7, 0), true, true, 10000, 10000⟩, [], 0⟩

/-- Two object states that agree on everything except possibly the
`streaming` flag. -/
def eqExceptStreaming (a b : GState) : Prop :=
  a.curr_az = b.curr_az ∧ a.curr_el = b.curr_el ∧ a.curr_pos = b.curr_pos ∧
  a.sim = b.sim ∧ a.cnt_az = b.cnt_az ∧ a.cnt_el = b.cnt_el

/-- `_cmd` never mutates the object state. -/
theorem cmdStep_s (env : Env) (c : Cmd) (m : Mach) : ((cmdStep env c m).2).s = m.s := by
  unfold cmdStep; cases env m.k <;> rfl

/-- Commands appended by `_cmd` are the command itself or the `TC`
diagnostic. -/
theorem cmdStep_tr_mem (env : Env) (c : Cmd) (m : Mach) (x : Cmd)
    (hx : x ∈ ((cmdStep env c m).2).tr) : x ∈ m.tr ∨ x = c ∨ x = .TC := by
  unfold cmdStep at hx
  cases h : env m.k <;> rw [h] at hx <;> simp at hx <;> tauto

/-- `_exit_pt` never mutates the object state (in particular it does not
clear `self.streaming`). -/
theorem exitPt_s (env : Env) (m : Mach) : (exitPt env m).s = m.s := by
  unfold exitPt
  rcases h : cmdStep env .ST m with ⟨o, m1⟩
  have h1 : m1.s = m.s := by rw [show m1 = (cmdStep env Cmd.ST m).2 by rw [h]]; exact cmdStep_s ..
  cases o
  · simpa using h1
  · simpa using (cmdStep_s env .PToff m1).trans h1

/-- Commands appended by `_exit_pt` are among `ST`, `PT 0,0`, `TC`. -/
theorem exitPt_tr_mem (env : Env) (m : Mach) (x : Cmd)
    (hx : x ∈ (exitPt env m).tr) : x ∈ m.tr ∨ x = .ST ∨ x = .PToff ∨ x = .TC := by
  unfold exitPt at hx
  rcases h : cmdStep env .ST m with ⟨o, m1⟩
  rw [h] at hx
  cases o with
  | none =>
    simp only at hx
    rcases cmdStep_tr_mem env .ST m x (by rw [h]; exact hx) with h' | h' | h' <;> tauto
  | some vs =>
    simp only at hx
    rcases cmdStep_tr_mem env .PToff m1 x hx with h' | h' | h'
    · rcases cmdStep_tr_mem env .ST m x (by rw [h]; exact h') with h2 | h2 | h2 <;> tauto
    · tauto
    · tauto

/-- `_enter_pt` leaves the state unchanged or only clears `self.streaming`. -/
theorem enterPt_s_cases (env : Env) (m : Mach) :
    (enterPt env m).s = m.s ∨ (enterPt env m).s = { m.s with streaming := false } := by
  unfold enterPt
  rcases h : cmdStep env .ST m with ⟨o, m1⟩
  have h1 : m1.s = m.s := by rw [show m1 = (cmdStep env Cmd.ST m).2 by rw [h]]; exact cmdStep_s ..
  cases o with
  | none => right; simp [setStreamingFalse, h1]
  | some vs =>
    dsimp only
    rcases h2 : cmdStep env .PTon m1 with ⟨o2, m2⟩
    have h3 : m2.s = m.s := by
      rw [show m2 = (cmdStep env Cmd.PTon m1).2 by rw [h2]]
      rw [cmdStep_s env .PTon m1, h1]
    cases o2 with
    | none => right; simp [setStreamingFalse, h3]
    | some ws => left; simpa using h3

/-- `_enter_pt` never turns streaming on. -/
theorem enterPt_streaming_mono (env : Env) (m : Mach)
    (h : (enterPt env m).s.streaming = true) : m.s.streaming = true := by
  rcases enterPt_s_cases env m with h' | h' <;> rw [h'] at h
  · exact h
  · simp at h

/-- Commands appended by `_enter_pt` are among `ST`, `PT 1,1`, `TC`. -/
theorem enterPt_tr_mem (env : Env) (m : Mach) (x : Cmd)
    (hx : x ∈ (enterPt env m).tr) : x ∈ m.tr ∨ x = .ST ∨ x = .PTon ∨ x = .TC := by
  unfold enterPt at hx
  rcases h : cmdStep env .ST m with ⟨o, m1⟩
  rw [h] at hx
  cases o with
  | none =>
    simp only [setStreamingFalse] at hx
    rcases cmdStep_tr_mem env .ST m x (by rw [h]; exact hx) with h' | h' | h' <;> tauto
  | some vs =>
    simp only at hx
    rcases h2 : cmdStep env .PTon m1 with ⟨o2, m2⟩
    rw [h2] at hx
    have hmem : x ∈ m2.tr → x ∈ m.tr ∨ x = .ST ∨ x = .PTon ∨ x = .TC := by
      intro hm
      rcases cmdStep_tr_mem env .PTon m1 x (by rw [h2]; exact hm) with h' | h' | h'
      · rcases cmdStep_tr_mem env .ST m x (by rw [h]; exact h') with h3 | h3 | h3 <;> tauto
      · tauto
      · tauto
    cases o2 with
    | none => exact hmem (by simpa [setStreamingFalse] using hx)
    | some ws => exact hmem (by simpa using hx)

/-- The in-position poll never mutates the object state. -/
theorem waitInpos_s (env : Env) : ∀ n m, ((waitInpos env n m).2).s = m.s := by
  intro n
  induction n with
  | zero => intro m; rfl
  | succ n ih =>
    intro m
    simp only [waitInpos]
    rcases h : cmdStep env .MG m with ⟨o, m1⟩
    have h1 : m1.s = m.s := by rw [show m1 = (cmdStep env .MG m).2 by rw [h]]; exact cmdStep_s ..
    cases o with
    | some vs =>
      dsimp only
      split
      · simpa using h1
      · exact (ih m1).trans h1
    | none => exact (ih m1).trans h1

/-- Commands appended by the in-position poll are among `MG`, `TC`. -/
theorem waitInpos_tr_mem (env : Env) : ∀ n m x, x ∈ ((waitInpos env n m).2).tr →
    x ∈ m.tr ∨ x = .MG ∨ x = .TC := by
  intro n
  induction n with
  | zero => intro m x hx; exact Or.inl hx
  | succ n ih =>
    intro m x hx
    simp only [waitInpos] at hx
    rcases h : cmdStep env .MG m with ⟨o, m1⟩
    rw [h] at hx
    have hstep : x ∈ m1.tr → x ∈ m.tr ∨ x = .MG ∨ x = .TC := by
      intro hm; exact cmdStep_tr_mem env .MG m x (by rw [h]; exact hm)
    cases o with
    | some vs =>
      dsimp only at hx
      rcases (by split at hx <;> [skip; skip] <;> first
        | (exact Or.inl hx)
        | (exact Or.inr (ih m1 x hx)) :
          x ∈ m1.tr ∨ (x ∈ m1.tr ∨ x = Cmd.MG ∨ x = Cmd.TC)) with h' | h'
      · exact hstep h'
      · rcases h' with h' | h' | h'
        · exact hstep h'
        · tauto
        · tauto
    | none =>
      rcases ih m1 x hx with h' | h' | h'
      · exact hstep h'
      · tauto
      · tauto

/-- The settle poll never mutates the object state. -/
theorem waitSettleCounts_s (env : Env) (tx ty : ℤ) (tol : ℚ) :
    ∀ n m, ((waitSettleCounts env tx ty tol n m).2).s = m.s := by
  intro n
  induction n with
  | zero => intro m; rfl
  | succ n ih =>
    intro m
    simp only [waitSettleCounts]
    rcases h : cmdStep env .TPX m with ⟨o, m1⟩
    have h1 : m1.s = m.s := by rw [show m1 = (cmdStep env .TPX m).2 by rw [h]]; exact cmdStep_s ..
    cases o with
    | none => exact (ih m1).trans h1
    | some vs =>
      dsimp only
      cases vs.head? with
      | none => exact (ih m1).trans h1
      | some cx =>
        dsimp only
        rcases h2 : cmdStep env .TPY m1 with ⟨o2, m2⟩
        have h3 : m2.s = m.s := by
          rw [show m2 = (cmdStep env .TPY m1).2 by rw [h2]]
          rw [cmdStep_s env .TPY m1, h1]
        cases o2 with
        | none => exact (ih m2).trans h3
        | some ws =>
          dsimp only
          cases ws.head? with
          | none => exact (ih m2).trans h3
          | some cy =>
            dsimp only
            split
            · simpa using h3
            · exact (ih m2).trans h3

set_option maxHeartbeats 1000000 in
/-- Commands appended by the settle poll are among `TP X`, `TP Y`, `TC`. -/
theorem waitSettleCounts_tr_mem (env : Env) (tx ty : ℤ) (tol : ℚ) :
    ∀ n m x, x ∈ ((waitSettleCounts env tx ty tol n m).2).tr →
      x ∈ m.tr ∨ x = .TPX ∨ x = .TPY ∨ x = .TC := by
  intro n
  induction n with
  | zero => intro m x hx; exact Or.inl hx
  | succ n ih =>
    intro m x hx
    simp only [waitSettleCounts] at hx
    rcases h : cmdStep env .TPX m with ⟨o, m1⟩
    rw [h] at hx
    have hstep : x ∈ m1.tr → x ∈ m.tr ∨ x = .TPX ∨ x = .TPY ∨ x = .TC := by
      intro hm
      rcases cmdStep_tr_mem env .TPX m x (by rw [h]; exact hm) with h' | h' | h' <;> tauto
    cases o with
    | none =>
      dsimp only at hx
      rcases ih m1 x hx with h' | h' <;> [exact hstep h'; tauto]
    | some vs =>
      dsimp only at hx
      rcases hv : vs.head? with _ | cx <;> rw [hv] at hx <;> dsimp only at hx
      · rcases ih m1 x hx with h' | h' <;> [exact hstep h'; tauto]
      · rcases h2 : cmdStep env .TPY m1 with ⟨o2, m2⟩
        rw [h2] at hx
        have hstep2 : x ∈ m2.tr → x ∈ m.tr ∨ x = .TPX ∨ x = .TPY ∨ x = .TC := by
          intro hm
          rcases cmdStep_tr_mem env .TPY m1 x (by rw [h2]; exact hm) with h' | h' | h'
          · exact hstep h'
          · tauto
          · tauto
        cases o2 with
        | none =>
          dsimp only at hx
          rcases ih m2 x hx with h' | h' <;> [exact hstep2 h'; tauto]
        | some ws =>
          dsimp only at hx
          rcases hw : ws.head? with _ | cy <;> rw [hw] at hx <;> dsimp only at hx
          · rcases ih m2 x hx with h' | h' <;> [exact hstep2 h'; tauto]
          · split at hx
            · exact hstep2 (by simpa using hx)
            · rcases ih m2 x hx with h' | h' <;> [exact hstep2 h'; tauto]

/-- The guarded `TP` read pair never mutates the object state. -/
theorem tpReadPair_s (env : Env) (m : Mach) : ((tpReadPair env m).2).s = m.s := by
  unfold tpReadPair
  rcases h : cmdStep env .TPX m with ⟨o, m1⟩
  have h1 : m1.s = m.s := by rw [show m1 = (cmdStep env .TPX m).2 by rw [h]]; exact cmdStep_s ..
  cases o with
  | none => exact h1
  | some vs =>
    dsimp only
    cases vs.head? with
    | none => exact h1
    | some cx =>
      dsimp only
      rcases h2 : cmdStep env .TPY m1 with ⟨o2, m2⟩
      have h3 : m2.s = m.s := by
        rw [show m2 = (cmdStep env .TPY m1).2 by rw [h2]]
        rw [cmdStep_s env .TPY m1, h1]
      cases o2 with
      | none => exact h3
      | some ws =>
        dsimp only
        cases ws.head? <;> exact h3

/-- Commands appended by the guarded `TP` read pair are among `TP X`,
`TP Y`, `TC`. -/
theorem tpReadPair_tr_mem (env : Env) (m : Mach) (x : Cmd)
    (hx : x ∈ ((tpReadPair env m).2).tr) :
    x ∈ m.tr ∨ x = .TPX ∨ x = .TPY ∨ x = .TC := by
  unfold tpReadPair at hx
  rcases h : cmdStep env .TPX m with ⟨o, m1⟩
  rw [h] at hx
  have hstep : x ∈ m1.tr → x ∈ m.tr ∨ x = .TPX ∨ x = .TPY ∨ x = .TC := by
    intro hm
    rcases cmdStep_tr_mem env .TPX m x (by rw [h]; exact hm) with h' | h' | h' <;> tauto
  cases o with
  | none => exact hstep (by simpa using hx)
  | some vs =>
    dsimp only at hx
    rcases hv : vs.head? with _ | cx <;> rw [hv] at hx <;> dsimp only at hx
    · exact hstep hx
    · rcases h2 : cmdStep env .TPY m1 with ⟨o2, m2⟩
      rw [h2] at hx
      have hstep2 : x ∈ m2.tr → x ∈ m.tr ∨ x = .TPX ∨ x = .TPY ∨ x = .TC := by
        intro hm
        rcases cmdStep_tr_mem env .TPY m1 x (by rw [h2]; exact hm) with h' | h' | h'
        · exact hstep h'
        · tauto
        · tauto
      cases o2 with
      | none => exact hstep2 (by simpa using hx)
      | some ws =>
        dsimp only at hx
        rcases hw : ws.head? with _ | cy <;> rw [hw] at hx <;> exact hstep2 (by simpa using hx)

/-- The streaming `PA`-only tail never mutates the object state. -/
theorem paThenSettle_s (env : Env) (fuel : ℕ) (tx ty : ℤ) (wait : Bool) (m : Mach) :
    ((paThenSettle env fuel tx ty wait m).2).s = m.s := by
  unfold paThenSettle
  rcases h : cmdStep env (.PA tx ty) m with ⟨o, m1⟩
  have h1 : m1.s = m.s := by
    rw [show m1 = (cmdStep env (.PA tx ty) m).2 by rw [h]]; exact cmdStep_s ..
  cases o with
  | none => exact h1
  | some vs =>
    dsimp only
    split
    · exact (waitSettleCounts_s env tx ty 30 fuel m1).trans h1
    · exact h1

/-- Commands appended by the streaming `PA`-only tail are among
`PA tx ty`, `TP X`, `TP Y`, `TC`. -/
theorem paThenSettle_tr_mem (env : Env) (fuel : ℕ) (tx ty : ℤ) (wait : Bool)
    (m : Mach) (x : Cmd) (hx : x ∈ ((paThenSettle env fuel tx ty wait m).2).tr) :
    x ∈ m.tr ∨ x = .PA tx ty ∨ x = .TPX ∨ x = .TPY ∨ x = .TC := by
  unfold paThenSettle at hx
  rcases h : cmdStep env (.PA tx ty) m with ⟨o, m1⟩
  rw [h] at hx
  have hstep : x ∈ m1.tr → x ∈ m.tr ∨ x = .PA tx ty ∨ x = .TPX ∨ x = .TPY ∨ x = .TC := by
    intro hm
    rcases cmdStep_tr_mem env (.PA tx ty) m x (by rw [h]; exact hm) with h' | h' | h' <;> tauto
  cases o with
  | none => exact hstep (by simpa using hx)
  | some vs =>
    dsimp only at hx
    split at hx
    · rcases waitSettleCounts_tr_mem env tx ty 30 fuel m1 x hx with h' | h' | h' | h'
      · exact hstep h'
      · tauto
      · tauto
      · tauto
    · exact hstep hx

/-- The classic `PA` + `BG` tail never mutates the object state. -/
theorem paThenBG_s (env : Env) (fuel : ℕ) (tx ty : ℤ) (wait : Bool) (m : Mach) :
    ((paThenBG env fuel tx ty wait m).2).s = m.s := by
  unfold paThenBG
  rcases h : cmdStep env (.PA tx ty) m with ⟨o, m1⟩
  have h1 : m1.s = m.s := by
    rw [show m1 = (cmdStep env (.PA tx ty) m).2 by rw [h]]; exact cmdStep_s ..
  cases o with
  | none => exact h1
  | some vs =>
    dsimp only
    rcases h2 : cmdStep env .BG m1 with ⟨o2, m2⟩
    have h3 : m2.s = m.s := by
      rw [show m2 = (cmdStep env .BG m1).2 by rw [h2]]
      rw [cmdStep_s env .BG m1, h1]
    cases o2 with
    | none => exact h3
    | some ws =>
      dsimp only
      split
      · exact (waitInpos_s env fuel m2).trans h3
      · exact h3

/-- Commands appended by the classic `PA` + `BG` tail are among
`PA tx ty`, `BG`, `MG`, `TC`. -/
theorem paThenBG_tr_mem (env : Env) (fuel : ℕ) (tx ty : ℤ) (wait : Bool)
    (m : Mach) (x : Cmd) (hx : x ∈ ((paThenBG env fuel tx ty wait m).2).tr) :
    x ∈ m.tr ∨ x = .PA tx ty ∨ x = .BG ∨ x = .MG ∨ x = .TC := by
  unfold paThenBG at hx
  rcases h : cmdStep env (.PA tx ty) m with ⟨o, m1⟩
  rw [h] at hx
  have hstep : x ∈ m1.tr → x ∈ m.tr ∨ x = .PA tx ty ∨ x = .BG ∨ x = .MG ∨ x = .TC := by
    intro hm
    rcases cmdStep_tr_mem env (.PA tx ty) m x (by rw [h]; exact hm) with h' | h' | h' <;> tauto
  cases o with
  | none => exact hstep (by simpa using hx)
  | some vs =>
    dsimp only at hx
    rcases h2 : cmdStep env .BG m1 with ⟨o2, m2⟩
    rw [h2] at hx
    have hstep2 : x ∈ m2.tr → x ∈ m.tr ∨ x = .PA tx ty ∨ x = .BG ∨ x = .MG ∨ x = .TC := by
      intro hm
      rcases cmdStep_tr_mem env .BG m1 x (by rw [h2]; exact hm) with h' | h' | h'
      · exact hstep h'
      · tauto
      · tauto
    cases o2 with
    | none => exact hstep2 (by simpa using hx)
    | some ws =>
      dsimp only at hx
      split at hx
      · rcases waitInpos_tr_mem env fuel m2 x hx with h' | h' | h'
        · exact hstep2 h'
        · tauto
        · tauto
      · exact hstep2 hx

/-- `_send_absolute_counts` never mutates the object state. -/
theorem sendAbsoluteCounts_s (env : Env) (fuel : ℕ) (tx ty : ℤ) (wait : Bool)
    (m : Mach) : ((sendAbsoluteCounts env fuel tx ty wait m).2).s = m.s := by
  unfold sendAbsoluteCounts
  split
  · rcases h : tpReadPair env m with ⟨o, m1⟩
    have h1 : m1.s = m.s := by rw [show m1 = (tpReadPair env m).2 by rw [h]]; exact tpReadPair_s ..
    cases o with
    | none => exact (paThenSettle_s env fuel tx ty wait m1).trans h1
    | some p =>
      rcases p with ⟨cx, cy⟩
      dsimp only
      split
      · exact h1
      · exact (paThenSettle_s env fuel tx ty wait m1).trans h1
  · exact paThenBG_s env fuel tx ty wait m

/-- Commands appended by `_send_absolute_counts` are among `PA tx ty`,
`TP X`, `TP Y`, `BG`, `MG`, `TC`; in particular any `PA` it issues carries
exactly the target counts. -/
theorem sendAbsoluteCounts_tr_mem (env : Env) (fuel : ℕ) (tx ty : ℤ) (wait : Bool)
    (m : Mach) (x : Cmd) (hx : x ∈ ((sendAbsoluteCounts env fuel tx ty wait m).2).tr) :
    x ∈ m.tr ∨ x = .PA tx ty ∨ x = .TPX ∨ x = .TPY ∨ x = .BG ∨ x = .MG ∨ x = .TC := by
  unfold sendAbsoluteCounts at hx
  split at hx
  · rcases h : tpReadPair env m with ⟨o, m1⟩
    rw [h] at hx
    have hstep : x ∈ m1.tr →
        x ∈ m.tr ∨ x = .PA tx ty ∨ x = .TPX ∨ x = .TPY ∨ x = .BG ∨ x = .MG ∨ x = .TC := by
      intro hm
      rcases tpReadPair_tr_mem env m x (by rw [h]; exact hm) with h' | h' | h' | h' <;> tauto
    have htail : x ∈ ((paThenSettle env fuel tx ty wait m1).2).tr →
        x ∈ m.tr ∨ x = .PA tx ty ∨ x = .TPX ∨ x = .TPY ∨ x = .BG ∨ x = .MG ∨ x = .TC := by
      intro hm
      rcases paThenSettle_tr_mem env fuel tx ty wait m1 x hm with h' | h' | h' | h' | h'
      · exact hstep h'
      · tauto
      · tauto
      · tauto
      · tauto
    cases o with
    | none => exact htail hx
    | some p =>
      rcases p with ⟨cx, cy⟩
      dsimp only at hx
      split at hx
      · exact hstep (by simpa using hx)
      · exact htail hx
  · rcases paThenBG_tr_mem env fuel tx ty wait m x hx with h' | h' | h' | h' | h' <;> tauto

/-- `eqExceptStreaming` is reflexive. -/
theorem eqExceptStreaming_refl (a : GState) : eqExceptStreaming a a := by
  exact ⟨rfl, rfl, rfl, rfl, rfl, rfl⟩

/-- Equal states agree except (possibly) on streaming. -/
theorem eqExceptStreaming_of_eq {a b : GState} (h : a = b) : eqExceptStreaming a b := by
  subst h; exact eqExceptStreaming_refl a

/-- `eqExceptStreaming` is transitive. -/
theorem eqExceptStreaming_trans {a b c : GState}
    (h1 : eqExceptStreaming a b) (h2 : eqExceptStreaming b c) : eqExceptStreaming a c := by
  obtain ⟨x1, x2, x3, x4, x5, x6⟩ := h1
  obtain ⟨y1, y2, y3, y4, y5, y6⟩ := h2
  exact ⟨x1.trans y1, x2.trans y2, x3.trans y3, x4.trans y4, x5.trans y5, x6.trans y6⟩

/-- `_enter_pt` changes at most the streaming flag. -/
theorem enterPt_agr (env : Env) (m : Mach) :
    eqExceptStreaming (enterPt env m).s m.s := by
  rcases enterPt_s_cases env m with h | h <;> rw [h]
  · exact eqExceptStreaming_refl _
  · exact ⟨rfl, rfl, rfl, rfl, rfl, rfl⟩

/-- The `PR` + `BG` tail changes at most the streaming flag of the state. -/
theorem prThenBG_agr (env : Env) (fuel : ℕ) (prx pry : ℤ) (wait wasPt : Bool)
    (m1 : Mach) : eqExceptStreaming ((prThenBG env fuel prx pry wait wasPt m1).2).s m1.s := by
  unfold prThenBG
  rcases h2 : cmdStep env (.PR prx pry) m1 with ⟨o2, m2⟩
  have hs2 : m2.s = m1.s := by
    rw [show m2 = (cmdStep env (.PR prx pry) m1).2 by rw [h2]]; exact cmdStep_s ..
  cases o2 with
  | none => exact eqExceptStreaming_of_eq hs2
  | some vs =>
    dsimp only
    rcases h3 : cmdStep env .BG m2 with ⟨o3, m3⟩
    have hs3 : m3.s = m1.s := by
      rw [show m3 = (cmdStep env .BG m2).2 by rw [h3]]
      rw [cmdStep_s, hs2]
    cases o3 with
    | none => exact eqExceptStreaming_of_eq hs3
    | some ws =>
      dsimp only
      set m4 := if wait then (waitInpos env fuel m3).2 else m3 with hm4
      have hs4 : m4.s = m1.s := by
        rw [hm4]; split
        · rw [waitInpos_s env fuel m3, hs3]
        · exact hs3
      split
      · exact eqExceptStreaming_trans (enterPt_agr env m4) (eqExceptStreaming_of_eq hs4)
      · exact eqExceptStreaming_of_eq hs4

/-- The `PR` + `BG` tail never turns streaming on. -/
theorem prThenBG_streaming_mono (env : Env) (fuel : ℕ) (prx pry : ℤ)
    (wait wasPt : Bool) (m1 : Mach)
    (h : ((prThenBG env fuel prx pry wait wasPt m1).2).s.streaming = true) :
    m1.s.streaming = true := by
  unfold prThenBG at h
  rcases h2 : cmdStep env (.PR prx pry) m1 with ⟨o2, m2⟩
  rw [h2] at h
  have hs2 : m2.s = m1.s := by
    rw [show m2 = (cmdStep env (.PR prx pry) m1).2 by rw [h2]]; exact cmdStep_s ..
  cases o2 with
  | none => rw [hs2] at h; exact h
  | some vs =>
    dsimp only at h
    rcases h3 : cmdStep env .BG m2 with ⟨o3, m3⟩
    rw [h3] at h
    have hs3 : m3.s = m1.s := by
      rw [show m3 = (cmdStep env .BG m2).2 by rw [h3]]
      rw [cmdStep_s, hs2]
    cases o3 with
    | none => rw [hs3] at h; exact h
    | some ws =>
      dsimp only at h
      set m4 := if wait then (waitInpos env fuel m3).2 else m3 with hm4
      have hs4 : m4.s = m1.s := by
        rw [hm4]; split
        · rw [waitInpos_s env fuel m3, hs3]
        · exact hs3
      split at h
      · rw [← hs4]; exact enterPt_streaming_mono env m4 (by simpa using h)
      · rw [hs4] at h; exact h

set_option maxHeartbeats 1000000 in
/-- Commands appended by the `PR` + `BG` tail are among `PR prx pry`,
`BG`, `MG`, `ST`, `PT 1,1`, `TC`. -/
theorem prThenBG_tr_mem (env : Env) (fuel : ℕ) (prx pry : ℤ) (wait wasPt : Bool)
    (m1 : Mach) (x : Cmd) (hx : x ∈ ((prThenBG env fuel prx pry wait wasPt m1).2).tr) :
    x ∈ m1.tr ∨ x = .PR prx pry ∨ x = .BG ∨ x = .MG ∨ x = .ST ∨ x = .PTon ∨ x = .TC := by
  unfold prThenBG at hx
  rcases h2 : cmdStep env (.PR prx pry) m1 with ⟨o2, m2⟩
  rw [h2] at hx
  have hstep : x ∈ m2.tr →
      x ∈ m1.tr ∨ x = .PR prx pry ∨ x = .BG ∨ x = .MG ∨ x = .ST ∨ x = .PTon ∨ x = .TC := by
    intro hm
    rcases cmdStep_tr_mem env (.PR prx pry) m1 x (by rw [h2]; exact hm) with h' | h' | h' <;> tauto
  cases o2 with
  | none => exact hstep (by simpa using hx)
  | some vs =>
    dsimp only at hx
    rcases h3 : cmdStep env .BG m2 with ⟨o3, m3⟩
    rw [h3] at hx
    have hstep3 : x ∈ m3.tr →
        x ∈ m1.tr ∨ x = .PR prx pry ∨ x = .BG ∨ x = .MG ∨ x = .ST ∨ x = .PTon ∨ x = .TC := by
      intro hm
      rcases cmdStep_tr_mem env .BG m2 x (by rw [h3]; exact hm) with h' | h' | h'
      · exact hstep h'
      · tauto
      · tauto
    cases o3 with
    | none => exact hstep3 (by simpa using hx)
    | some ws =>
      dsimp only at hx
      cases wait <;> cases wasPt
      · simp only [Bool.false_eq_true, if_false] at hx
        exact hstep3 hx
      · simp only [Bool.false_eq_true, if_false, if_true] at hx
        rcases enterPt_tr_mem env m3 x hx with h' | h' | h' | h'
        · exact hstep3 h'
        · tauto
        · tauto
        · tauto
      · simp only [Bool.false_eq_true, if_false, if_true] at hx
        rcases waitInpos_tr_mem env fuel m3 x hx with h' | h' | h'
        · exact hstep3 h'
        · tauto
        · tauto
      · simp only [if_true] at hx
        rcases enterPt_tr_mem env (waitInpos env fuel m3).2 x hx with h' | h' | h' | h'
        · rcases waitInpos_tr_mem env fuel m3 x h' with h2 | h2 | h2
          · exact hstep3 h2
          · tauto
          · tauto
        · tauto
        · tauto
        · tauto

/-- When the call did not find streaming set, the `PR` + `BG` tail issues
no `PT 1,1` and leaves the streaming flag as it was. -/
theorem prThenBG_noPTon (env : Env) (fuel : ℕ) (prx pry : ℤ) (wait : Bool)
    (m1 : Mach) (x : Cmd) (hx : x ∈ ((prThenBG env fuel prx pry wait false m1).2).tr) :
    x ∈ m1.tr ∨ x = .PR prx pry ∨ x = .BG ∨ x = .MG ∨ x = .TC := by
  unfold prThenBG at hx
  rcases h2 : cmdStep env (.PR prx pry) m1 with ⟨o2, m2⟩
  rw [h2] at hx
  have hstep : x ∈ m2.tr →
      x ∈ m1.tr ∨ x = .PR prx pry ∨ x = .BG ∨ x = .MG ∨ x = .TC := by
    intro hm
    rcases cmdStep_tr_mem env (.PR prx pry) m1 x (by rw [h2]; exact hm) with h' | h' | h' <;> tauto
  cases o2 with
  | none => exact hstep (by simpa using hx)
  | some vs =>
    dsimp only at hx
    rcases h3 : cmdStep env .BG m2 with ⟨o3, m3⟩
    rw [h3] at hx
    have hstep3 : x ∈ m3.tr →
        x ∈ m1.tr ∨ x = .PR prx pry ∨ x = .BG ∨ x = .MG ∨ x = .TC := by
      intro hm
      rcases cmdStep_tr_mem env .BG m2 x (by rw [h3]; exact hm) with h' | h' | h'
      · exact hstep h'
      · tauto
      · tauto
    cases o3 with
    | none => exact hstep3 (by simpa using hx)
    | some ws =>
      simp only [Bool.false_eq_true, if_false] at hx
      rcases hw : wait with _ | _ <;> rw [hw] at hx
      · exact hstep3 (by simpa using hx)
      · simp only [if_pos rfl] at hx
        rcases waitInpos_tr_mem env fuel m3 x (by simpa using hx) with h' | h' | h'
        · exact hstep3 h'
        · tauto
        · tauto

/-- With `wasPt = false` the `PR` + `BG` tail leaves the object state
untouched. -/
theorem prThenBG_s_false (env : Env) (fuel : ℕ) (prx pry : ℤ) (wait : Bool)
    (m1 : Mach) : ((prThenBG env fuel prx pry wait false m1).2).s = m1.s := by
  unfold prThenBG
  rcases h2 : cmdStep env (.PR prx pry) m1 with ⟨o2, m2⟩
  have hs2 : m2.s = m1.s := by
    rw [show m2 = (cmdStep env (.PR prx pry) m1).2 by rw [h2]]; exact cmdStep_s ..
  cases o2 with
  | none => exact hs2
  | some vs =>
    dsimp only
    rcases h3 : cmdStep env .BG m2 with ⟨o3, m3⟩
    have hs3 : m3.s = m1.s := by
      rw [show m3 = (cmdStep env .BG m2).2 by rw [h3]]
      rw [cmdStep_s, hs2]
    cases o3 with
    | none => exact hs3
    | some ws =>
      dsimp only
      simp only [Bool.false_eq_true, if_false]
      split
      · rw [waitInpos_s env fuel m3, hs3]
      · exact hs3

/-- The object state of the machine `_send_relative_counts` starts its tail
from: unchanged by the transient `_exit_pt`. -/
theorem exitPtIf_s (env : Env) (b : Bool) (m : Mach) :
    ((if b then exitPt env m else m)).s = m.s := by
  cases b
  · rfl
  · simp only [if_true]; exact exitPt_s env m

/-- `_send_relative_counts` changes at most the streaming flag of the
object state. -/
theorem sendRelativeCounts_agr (env : Env) (fuel : ℕ) (dx dy : ℤ) (wait : Bool)
    (m : Mach) : eqExceptStreaming ((sendRelativeCounts env fuel dx dy wait m).2).s m.s := by
  unfold sendRelativeCounts
  dsimp only
  split
  · exact eqExceptStreaming_trans
      (prThenBG_agr env fuel _ _ wait m.s.streaming _)
      (eqExceptStreaming_of_eq (exitPtIf_s env m.s.streaming m))
  · exact eqExceptStreaming_refl _

/-- `_send_relative_counts` never turns streaming on. -/
theorem sendRelativeCounts_streaming_mono (env : Env) (fuel : ℕ) (dx dy : ℤ)
    (wait : Bool) (m : Mach)
    (h : ((sendRelativeCounts env fuel dx dy wait m).2).s.streaming = true) :
    m.s.streaming = true := by
  unfold sendRelativeCounts at h
  dsimp only at h
  split at h
  · have := prThenBG_streaming_mono env fuel _ _ wait m.s.streaming _ h
    rw [exitPtIf_s env m.s.streaming m] at this
    exact this
  · exact h

/-- Commands appended by `_send_relative_counts` are among the issued
`PR` (with its per-axis deadband zeroing), `BG`, `MG`, and the transient
PT exit / re-entry commands `ST`, `PT 0,0`, `PT 1,1`, plus `TC`. -/
theorem sendRelativeCounts_tr_mem (env : Env) (fuel : ℕ) (dx dy : ℤ) (wait : Bool)
    (m : Mach) (x : Cmd) (hx : x ∈ ((sendRelativeCounts env fuel dx dy wait m).2).tr) :
    x ∈ m.tr ∨
    x = .PR (if MIN_PR_COUNTS ≤ |dx| then dx else 0) (if MIN_PR_COUNTS ≤ |dy| then dy else 0) ∨
    x = .BG ∨ x = .MG ∨ x = .ST ∨ x = .PTon ∨ x = .PToff ∨ x = .TC := by
  unfold sendRelativeCounts at hx
  dsimp only at hx
  split at hx
  · have hm1 : x ∈ ((if m.s.streaming then exitPt env m else m)).tr →
        x ∈ m.tr ∨ x = .ST ∨ x = .PToff ∨ x = .TC := by
      intro hm
      cases hs : m.s.streaming
      · rw [hs] at hm; simp only [Bool.false_eq_true, if_false] at hm; exact Or.inl hm
      · rw [hs] at hm; simp only [if_true] at hm
        exact exitPt_tr_mem env m x hm
    have hd : (if decide (MIN_PR_COUNTS ≤ |dx|) = true then dx else 0)
        = (if MIN_PR_COUNTS ≤ |dx| then dx else 0) := by simp
    have hd2 : (if decide (MIN_PR_COUNTS ≤ |dy|) = true then dy else 0)
        = (if MIN_PR_COUNTS ≤ |dy| then dy else 0) := by simp
    rcases prThenBG_tr_mem env fuel _ _ wait m.s.streaming _ x hx with
      h' | h' | h' | h' | h' | h' | h'
    · rcases hm1 h' with h2 | h2 | h2 | h2 <;> tauto
    · rw [hd, hd2] at h'; tauto
    · tauto
    · tauto
    · tauto
    · tauto
    · tauto
  · exact Or.inl hx

/-- When the session flag is already off, `_send_relative_counts` keeps it
off and never issues `PT 1,1`. -/
theorem sendRelativeCounts_noStream (env : Env) (fuel : ℕ) (dx dy : ℤ) (wait : Bool)
    (m : Mach) (hs : m.s.streaming = false) :
    ((sendRelativeCounts env fuel dx dy wait m).2).s.streaming = false ∧
    (Cmd.PTon ∈ ((sendRelativeCounts env fuel dx dy wait m).2).tr →
      Cmd.PTon ∈ m.tr) := by
  unfold sendRelativeCounts
  dsimp only
  split
  · rw [hs]
    simp only [Bool.false_eq_true, if_false]
    constructor
    · rw [prThenBG_s_false env fuel _ _ wait m, hs]
    · intro hx
      rcases prThenBG_noPTon env fuel _ _ wait m Cmd.PTon hx with h' | h' | h' | h' | h'
      · exact h'
      · exact absurd h' (by simp)
      · exact absurd h' (by simp)
      · exact absurd h' (by simp)
      · exact absurd h' (by simp)
  · exact ⟨hs, fun hx => hx⟩

/-- The sub-deadband case of `_send_relative_counts`: both axis deltas
below `MIN_PR_COUNTS` means an immediate `False` return with no command
and no state change. -/
theorem sendRelativeCounts_deadband (env : Env) (fuel : ℕ) (dx dy : ℤ) (wait : Bool)
    (m : Mach) (h1 : |dx| < MIN_PR_COUNTS) (h2 : |dy| < MIN_PR_COUNTS) :
    sendRelativeCounts env fuel dx dy wait m = (some false, m) := by
  unfold sendRelativeCounts
  dsimp only
  rw [if_neg]
  simp [not_le.mpr h1, not_le.mpr h2]

/-- Clipping lands inside the interval when the interval is nonempty. -/
theorem clip_mem_bounds (v lo hi : ℚ) (h : lo ≤ hi) :
    lo ≤ clip v lo hi ∧ clip v lo hi ≤ hi :=
  ⟨le_max_left _ _, max_le h (min_le_left _ _)⟩

/-- The azimuth travel interval is nonempty. -/
theorem az_min_le_max : AZ_MIN ≤ AZ_MAX := by norm_num [AZ_MIN, AZ_MAX]

/-- The elevation travel interval is nonempty. -/
theorem el_min_le_max : EL_MIN ≤ EL_MAX := by norm_num [EL_MIN, EL_MAX]

/-- Writing clipped angles through `setPos` establishes the invariant. -/
theorem inv_setPos_clip (a b : ℚ) (m : Mach) :
    Inv ((setPos (clip a AZ_MIN AZ_MAX) (clip b EL_MIN EL_MAX) m).s) := by
  refine ⟨(clip_mem_bounds a _ _ az_min_le_max).1, (clip_mem_bounds a _ _ az_min_le_max).2,
    (clip_mem_bounds b _ _ el_min_le_max).1, (clip_mem_bounds b _ _ el_min_le_max).2, rfl⟩

/-- The invariant transports across states that agree up to streaming. -/
theorem inv_of_eqExceptStreaming {a b : GState} (h : eqExceptStreaming a b)
    (hb : Inv b) : Inv a := by
  obtain ⟨h1, h2, h3, _, _, _⟩ := h
  obtain ⟨i1, i2, i3, i4, i5⟩ := hb
  exact ⟨by rw [h1]; exact i1, by rw [h1]; exact i2, by rw [h2]; exact i3,
    by rw [h2]; exact i4, by rw [h3, h1, h2]; exact i5⟩

/-- With the session flag off, `move_absolute` keeps it off and never
issues `PT 1,1`. -/
theorem moveAbsolute_noStream (env : Env) (fuel : ℕ) (az el : ℚ) (wait : Bool)
    (m : Mach) (hs : m.s.streaming = false) :
    ((moveAbsolute env fuel az el wait m).2).s.streaming = false ∧
    (Cmd.PTon ∈ ((moveAbsolute env fuel az el wait m).2).tr → Cmd.PTon ∈ m.tr) := by
  unfold moveAbsolute
  dsimp only
  split
  · exact ⟨hs, fun hx => hx⟩
  · split
    · exact ⟨hs, fun hx => hx⟩
    · rw [hs]
      simp only [Bool.false_eq_true, if_false]
      rcases h : sendAbsoluteCounts env fuel (pyRound (clip az AZ_MIN AZ_MAX * m.s.cnt_az))
          (pyRound (clip (el - 90) EL_MIN EL_MAX * m.s.cnt_el)) wait m with ⟨o, m2⟩
      have hsm : m2.s = m.s := by
        rw [show m2 = (sendAbsoluteCounts env fuel _ _ wait m).2 by rw [h]]
        exact sendAbsoluteCounts_s ..
      have htr : Cmd.PTon ∈ m2.tr → Cmd.PTon ∈ m.tr := by
        intro hm
        rcases sendAbsoluteCounts_tr_mem env fuel _ _ wait m Cmd.PTon
            (by rw [h]; exact hm) with h' | h' | h' | h' | h' | h' | h'
        · exact h'
        all_goals exact absurd h' (by simp)
      cases o with
      | none => exact ⟨by rw [hsm]; exact hs, htr⟩
      | some b => exact ⟨by simp [setPos, hsm, hs], fun hx => htr (by simpa [setPos] using hx)⟩

/-- With the session flag off, `move_relative` keeps it off and never
issues `PT 1,1`. -/
theorem moveRelative_noStream (env : Env) (fuel : ℕ) (dAz dEl : ℚ) (wait : Bool)
    (m : Mach) (hs : m.s.streaming = false) :
    ((moveRelative env fuel dAz dEl wait m).2).s.streaming = false ∧
    (Cmd.PTon ∈ ((moveRelative env fuel dAz dEl wait m).2).tr → Cmd.PTon ∈ m.tr) := by
  unfold moveRelative
  dsimp only
  split
  · exact ⟨hs, fun hx => hx⟩
  · rcases h : sendRelativeCounts env fuel
        (pyRound ((clip (m.s.curr_az + dAz) AZ_MIN AZ_MAX - m.s.curr_az) * m.s.cnt_az))
        (pyRound ((clip (m.s.curr_el + dEl) EL_MIN EL_MAX - m.s.curr_el) * m.s.cnt_el))
        wait m with ⟨o, m1⟩
    have hcore := sendRelativeCounts_noStream env fuel
        (pyRound ((clip (m.s.curr_az + dAz) AZ_MIN AZ_MAX - m.s.curr_az) * m.s.cnt_az))
        (pyRound ((clip (m.s.curr_el + dEl) EL_MIN EL_MAX - m.s.curr_el) * m.s.cnt_el))
        wait m hs
    rw [h] at hcore
    cases o with
    | none => exact hcore
    | some b =>
      cases b with
      | false => exact hcore
      | true => exact ⟨by simp [setPos]; exact hcore.1, fun hx => hcore.2 (by simpa [setPos] using hx)⟩

/-- With the session flag off, `degSteer` keeps it off and never issues
`PT 1,1`. -/
theorem degSteer_noStream (env : Env) (fuel : ℕ) (az el : ℚ) (absolute wait : Bool)
    (m : Mach) (hs : m.s.streaming = false) :
    ((degSteer env fuel az el absolute wait m).2).s.streaming = false ∧
    (Cmd.PTon ∈ ((degSteer env fuel az el absolute wait m).2).tr → Cmd.PTon ∈ m.tr) := by
  unfold degSteer
  dsimp only
  split
  · split
    · exact ⟨hs, fun hx => hx⟩
    · exact ⟨hs, fun hx => hx⟩
  · split
    · split
      · exact ⟨hs, fun hx => hx⟩
      · rcases h : sendAbsoluteCounts env fuel (pyRound (clip az AZ_MIN AZ_MAX * m.s.cnt_az))
            (pyRound (clip el EL_MIN EL_MAX * m.s.cnt_el)) wait m with ⟨o, m1⟩
        have hsm : m1.s = m.s := by
          rw [show m1 = (sendAbsoluteCounts env fuel _ _ wait m).2 by rw [h]]
          exact sendAbsoluteCounts_s ..
        have htr : Cmd.PTon ∈ m1.tr → Cmd.PTon ∈ m.tr := by
          intro hm
          rcases sendAbsoluteCounts_tr_mem env fuel _ _ wait m Cmd.PTon
              (by rw [h]; exact hm) with h' | h' | h' | h' | h' | h' | h'
          · exact h'
          all_goals exact absurd h' (by simp)
        cases o with
        | none => exact ⟨by rw [hsm]; exact hs, htr⟩
        | some b =>
          exact ⟨by simp [setPos, hsm, hs], fun hx => htr (by simpa [setPos] using hx)⟩
    · rw [hs]
      simp only [Bool.false_eq_true, if_false]
      rcases h : sendRelativeCounts env fuel (pyRound (clip az AZ_MIN AZ_MAX * m.s.cnt_az))
          (pyRound (clip el EL_MIN EL_MAX * m.s.cnt_el)) wait m with ⟨o, m2⟩
      have hcore := sendRelativeCounts_noStream env fuel
          (pyRound (clip az AZ_MIN AZ_MAX * m.s.cnt_az))
          (pyRound (clip el EL_MIN EL_MAX * m.s.cnt_el)) wait m hs
      rw [h] at hcore
      cases o with
      | none => exact hcore
      | some b =>
        cases b with
        | false =>
          exact ⟨by simp [setPosOnly]; exact hcore.1,
            fun hx => hcore.2 (by simpa [setPosOnly] using hx)⟩
        | true =>
          exact ⟨by simp [setPosOnly]; exact hcore.1,
            fun hx => hcore.2 (by simpa [setPosOnly] using hx)⟩

/-- With the session flag off, `stop` keeps it off and issues no `PT 1,1`. -/
theorem stopCmd_noStream (env : Env) (m : Mach) (hs : m.s.streaming = false) :
    (stopCmd env m).s.streaming = false ∧
    (Cmd.PTon ∈ (stopCmd env m).tr → Cmd.PTon ∈ m.tr) := by
  unfold stopCmd
  split
  · exact ⟨hs, fun hx => hx⟩
  · refine ⟨by rw [cmdStep_s]; exact hs, fun hx => ?_⟩
    rcases cmdStep_tr_mem env .ST m Cmd.PTon hx with h' | h' | h'
    · exact h'
    · exact absurd h' (by simp)
    · exact absurd h' (by simp)

/-- A transient `_enter_pt` (under an `if`) changes at most streaming. -/
theorem enterPtIf_agr (env : Env) (b : Bool) (m : Mach) :
    eqExceptStreaming ((if b then enterPt env m else m)).s m.s := by
  cases b
  · exact eqExceptStreaming_refl _
  · simp only [if_true]; exact enterPt_agr env m

/-- Re-syncing the position vector preserves the invariant when the angles
are in bounds. -/
theorem inv_setPosOnly (m : Mach) (h1 : AZ_MIN ≤ m.s.curr_az)
    (h2 : m.s.curr_az ≤ AZ_MAX) (h3 : EL_MIN ≤ m.s.curr_el)
    (h4 : m.s.curr_el ≤ EL_MAX) : Inv ((setPosOnly m).s) :=
  ⟨h1, h2, h3, h4, rfl⟩

/-- `move_absolute` preserves the state invariant. -/
theorem moveAbsolute_inv (env : Env) (fuel : ℕ) (az el : ℚ) (wait : Bool)
    (m : Mach) (hinv : Inv m.s) : Inv ((moveAbsolute env fuel az el wait m).2).s := by
  unfold moveAbsolute
  dsimp only
  split
  · exact inv_setPos_clip az (el - 90) m
  · split
    · exact hinv
    · rcases h : sendAbsoluteCounts env fuel
          (pyRound (clip az AZ_MIN AZ_MAX * m.s.cnt_az))
          (pyRound (clip (el - 90) EL_MIN EL_MAX * m.s.cnt_el)) wait
          (if m.s.streaming = true then exitPt env m else m) with ⟨o, m2⟩
      have hm2 : m2.s = m.s := by
        rw [show m2 = (sendAbsoluteCounts env fuel _ _ wait _).2 by rw [h]]
        rw [sendAbsoluteCounts_s, exitPtIf_s]
      cases o with
      | none => rw [hm2]; exact hinv
      | some b => exact inv_setPos_clip az (el - 90) _

/-- `move_relative` preserves the state invariant. -/
theorem moveRelative_inv (env : Env) (fuel : ℕ) (dAz dEl : ℚ) (wait : Bool)
    (m : Mach) (hinv : Inv m.s) : Inv ((moveRelative env fuel dAz dEl wait m).2).s := by
  unfold moveRelative
  dsimp only
  split
  · exact inv_setPos_clip (m.s.curr_az + dAz) (m.s.curr_el + dEl) m
  · rcases h : sendRelativeCounts env fuel
        (pyRound ((clip (m.s.curr_az + dAz) AZ_MIN AZ_MAX - m.s.curr_az) * m.s.cnt_az))
        (pyRound ((clip (m.s.curr_el + dEl) EL_MIN EL_MAX - m.s.curr_el) * m.s.cnt_el))
        wait m with ⟨o, m1⟩
    have hagr : eqExceptStreaming m1.s m.s := by
      have h0 := sendRelativeCounts_agr env fuel
          (pyRound ((clip (m.s.curr_az + dAz) AZ_MIN AZ_MAX - m.s.curr_az) * m.s.cnt_az))
          (pyRound ((clip (m.s.curr_el + dEl) EL_MIN EL_MAX - m.s.curr_el) * m.s.cnt_el))
          wait m
      rw [h] at h0
      exact h0
    cases o with
    | none => exact inv_of_eqExceptStreaming hagr hinv
    | some b =>
      cases b with
      | false => exact inv_of_eqExceptStreaming hagr hinv
      | true => exact inv_setPos_clip (m.s.curr_az + dAz) (m.s.curr_el + dEl) _

/-- `degSteer` preserves the state invariant. -/
theorem degSteer_inv (env : Env) (fuel : ℕ) (az el : ℚ) (absolute wait : Bool)
    (m : Mach) (hinv : Inv m.s) : Inv ((degSteer env fuel az el absolute wait m).2).s := by
  unfold degSteer
  dsimp only
  split
  · split
    · exact inv_setPos_clip az el m
    · exact inv_setPos_clip (m.s.curr_az + clip az AZ_MIN AZ_MAX)
        (m.s.curr_el + clip el EL_MIN EL_MAX) m
  · split
    · split
      · exact hinv
      · rcases h : sendAbsoluteCounts env fuel
            (pyRound (clip az AZ_MIN AZ_MAX * m.s.cnt_az))
            (pyRound (clip el EL_MIN EL_MAX * m.s.cnt_el)) wait m with ⟨o, m1⟩
        have hm1 : m1.s = m.s := by
          rw [show m1 = (sendAbsoluteCounts env fuel _ _ wait m).2 by rw [h]]
          exact sendAbsoluteCounts_s ..
        cases o with
        | none => rw [hm1]; exact hinv
        | some b => exact inv_setPos_clip az el _
    · rcases h : sendRelativeCounts env fuel
          (pyRound (clip az AZ_MIN AZ_MAX * m.s.cnt_az))
          (pyRound (clip el EL_MIN EL_MAX * m.s.cnt_el)) wait
          (if m.s.streaming = true then exitPt env m else m) with ⟨o, m2⟩
      have hagr : eqExceptStreaming m2.s m.s := by
        have h0 := sendRelativeCounts_agr env fuel
            (pyRound (clip az AZ_MIN AZ_MAX * m.s.cnt_az))
            (pyRound (clip el EL_MIN EL_MAX * m.s.cnt_el)) wait
            (if m.s.streaming = true then exitPt env m else m)
        rw [h] at h0
        exact eqExceptStreaming_trans h0
          (eqExceptStreaming_of_eq (exitPtIf_s env m.s.streaming m))
      cases o with
      | none => exact inv_of_eqExceptStreaming hagr hinv
      | some moved =>
        cases moved with
        | false =>
          simp only [Bool.false_eq_true, if_false]
          refine inv_setPosOnly _ ?_ ?_ ?_ ?_
          · rw [(enterPtIf_agr env m.s.streaming m2).1, hagr.1]; exact hinv.1
          · rw [(enterPtIf_agr env m.s.streaming m2).1, hagr.1]; exact hinv.2.1
          · rw [(enterPtIf_agr env m.s.streaming m2).2.1, hagr.2.1]; exact hinv.2.2.1
          · rw [(enterPtIf_agr env m.s.streaming m2).2.1, hagr.2.1]; exact hinv.2.2.2.1
        | true =>
          simp only [if_true]
          refine inv_setPosOnly _ ?_ ?_ ?_ ?_
          · rw [(enterPtIf_agr env m.s.streaming _).1]
            exact (clip_mem_bounds _ _ _ az_min_le_max).1
          · rw [(enterPtIf_agr env m.s.streaming _).1]
            exact (clip_mem_bounds _ _ _ az_min_le_max).2
          · rw [(enterPtIf_agr env m.s.streaming _).2.1]
            exact (clip_mem_bounds _ _ _ el_min_le_max).1
          · rw [(enterPtIf_agr env m.s.streaming _).2.1]
            exact (clip_mem_bounds _ _ _ el_min_le_max).2

/-- `go_home` preserves the state invariant. -/
theorem goHome_inv (env : Env) (fuel : ℕ) (wait : Bool) (m : Mach)
    (hinv : Inv m.s) : Inv ((goHome env fuel wait m).2).s :=
  moveAbsolute_inv env fuel 0 90 wait m hinv

/-- `stop` preserves the state invariant. -/
theorem stopCmd_inv (env : Env) (m : Mach) (hinv : Inv m.s) :
    Inv (stopCmd env m).s := by
  unfold stopCmd
  split
  · exact hinv
  · rw [cmdStep_s]; exact hinv

/-- If either exchange of `_enter_pt` fails, the session flag is cleared:
the controller falls back to classic mode. -/
theorem enterPt_fail_clears_streaming (env : Env) (m : Mach)
    (h : enterPtFails env m) : (enterPt env m).s.streaming = false := by
  unfold enterPt
  rcases h with h | ⟨h1, h2⟩
  · have hst : cmdStep env .ST m
        = (none, { m with tr := m.tr ++ [.ST, .TC], k := m.k + 2 }) := by
      unfold cmdStep; rw [h]
    rw [hst]
    rfl
  · cases henv : env m.k with
    | err => exact absurd henv h1
    | ok vs =>
      have hst : cmdStep env .ST m
          = (some vs, { m with tr := m.tr ++ [.ST], k := m.k + 1 }) := by
        unfold cmdStep; rw [henv]
      rw [hst]
      dsimp only
      have hpt : cmdStep env .PTon { m with tr := m.tr ++ [.ST], k := m.k + 1 }
          = (none, { m with tr := (m.tr ++ [.ST]) ++ [.PTon, .TC], k := m.k + 1 + 2 }) := by
        unfold cmdStep
        dsimp only
        rw [h2]
      rw [hpt]
      rfl

/-- Iterating the observed in-position step commutes with one unfolding. -/
theorem inposSlot_shift (env : Env) (k : ℕ) : ∀ j,
    inposSlot env k (j+1) = inposSlot env ((inposStepK env k).2) j := by
  intro j
  induction j with
  | zero => rfl
  | succ j ih =>
    have hstep : inposSlot env k (j+1+1) = (inposStepK env (inposSlot env k (j+1))).2 := rfl
    rw [hstep, ih]
    rfl

/-- Hit of a later iteration seen from the next slot. -/
theorem inposHit_shift (env : Env) (k : ℕ) (j : ℕ) :
    inposHit env k (j+1) = inposHit env ((inposStepK env k).2) j := by
  simp only [inposHit, inposSlot_shift]

/-- `_wait_inpos` returns `True` exactly when some iteration within the
fuel observes the in-position condition (failed exchanges count as "not
yet satisfied" and polling continues). -/
theorem waitInpos_true_iff (env : Env) : ∀ n m, (waitInpos env n m).1 = true ↔
    ∃ j, j < n ∧ inposHit env m.k j = true := by
  intro n
  induction n with
  | zero =>
    intro m
    simp [waitInpos]
  | succ n ih =>
    intro m
    simp only [waitInpos]
    cases henv : env m.k with
    | ok vs =>
      have hst : cmdStep env .MG m
          = (some vs, { m with tr := m.tr ++ [.MG], k := m.k + 1 }) := by
        unfold cmdStep; rw [henv]
      rw [hst]
      dsimp only
      have hstep2 : (inposStepK env m.k).2 = m.k + 1 := by simp [inposStepK, henv]
      by_cases hmet : inposMet vs = true
      · rw [if_pos hmet]
        simp only [true_iff]
        exact ⟨0, Nat.succ_pos n, by simp [inposHit, inposSlot, inposStepK, henv, hmet]⟩
      · rw [if_neg hmet]
        have hhit0 : inposHit env m.k 0 = false := by
          simp [inposHit, inposSlot, inposStepK, henv]
          exact Bool.of_not_eq_true hmet
        rw [ih { m with tr := m.tr ++ [.MG], k := m.k + 1 }]
        constructor
        · rintro ⟨j, hj, hh⟩
          exact ⟨j+1, Nat.succ_lt_succ hj, by rw [inposHit_shift, hstep2]; exact hh⟩
        · rintro ⟨j, hj, hh⟩
          cases j with
          | zero => rw [hhit0] at hh; exact absurd hh (by simp)
          | succ j =>
            refine ⟨j, Nat.lt_of_succ_lt_succ hj, ?_⟩
            rw [inposHit_shift, hstep2] at hh
            exact hh
    | err =>
      have hst : cmdStep env .MG m
          = (none, { m with tr := m.tr ++ [.MG, .TC], k := m.k + 2 }) := by
        unfold cmdStep; rw [henv]
      rw [hst]
      dsimp only
      have hstep2 : (inposStepK env m.k).2 = m.k + 2 := by simp [inposStepK, henv]
      have hhit0 : inposHit env m.k 0 = false := by
        simp [inposHit, inposSlot, inposStepK, henv]
      rw [ih { m with tr := m.tr ++ [.MG, .TC], k := m.k + 2 }]
      constructor
      · rintro ⟨j, hj, hh⟩
        exact ⟨j+1, Nat.succ_lt_succ hj, by rw [inposHit_shift, hstep2]; exact hh⟩
      · rintro ⟨j, hj, hh⟩
        cases j with
        | zero => rw [hhit0] at hh; exact absurd hh (by simp)
        | succ j =>
          refine ⟨j, Nat.lt_of_succ_lt_succ hj, ?_⟩
          rw [inposHit_shift, hstep2] at hh
          exact hh

/-- Iterating the observed settle step commutes with one unfolding. -/
theorem settleSlot_shift (env : Env) (tx ty : ℤ) (tol : ℚ) (k : ℕ) : ∀ j,
    settleSlot env tx ty tol k (j+1)
      = settleSlot env tx ty tol ((settleStepK env tx ty tol k).2) j := by
  intro j
  induction j with
  | zero => rfl
  | succ j ih =>
    have hstep : settleSlot env tx ty tol k (j+1+1)
        = (settleStepK env tx ty tol (settleSlot env tx ty tol k (j+1))).2 := rfl
    rw [hstep, ih]
    rfl

/-- Hit of a later settle iteration seen from the next slot. -/
theorem settleHit_shift (env : Env) (tx ty : ℤ) (tol : ℚ) (k : ℕ) (j : ℕ) :
    settleHit env tx ty tol k (j+1)
      = settleHit env tx ty tol ((settleStepK env tx ty tol k).2) j := by
  simp only [settleHit, settleSlot_shift]

set_option maxHeartbeats 1000000 in
/-- `_wait_settle_counts` returns `True` exactly when some iteration within
the fuel reads both axes within tolerance of the target (failed exchanges
and unparsable responses count as "not yet satisfied"). -/
theorem waitSettleCounts_true_iff (env : Env) (tx ty : ℤ) (tol : ℚ) : ∀ n m,
    (waitSettleCounts env tx ty tol n m).1 = true ↔
    ∃ j, j < n ∧ settleHit env tx ty tol m.k j = true := by
  intro n
  induction n with
  | zero =>
    intro m
    simp [waitSettleCounts]
  | succ n ih =>
    intro m
    have hrec : ∀ (m' : Mach), m'.k = (settleStepK env tx ty tol m.k).2 →
        settleHit env tx ty tol m.k 0 = false →
        ((waitSettleCounts env tx ty tol n m').1 = true ↔
          ∃ j, j < n + 1 ∧ settleHit env tx ty tol m.k j = true) := by
      intro m' hk h0
      rw [ih m']
      constructor
      · rintro ⟨j, hj, hh⟩
        refine ⟨j+1, Nat.succ_lt_succ hj, ?_⟩
        rw [settleHit_shift, ← hk]
        exact hh
      · rintro ⟨j, hj, hh⟩
        cases j with
        | zero => rw [h0] at hh; exact absurd hh (by simp)
        | succ j =>
          refine ⟨j, Nat.lt_of_succ_lt_succ hj, ?_⟩
          rw [settleHit_shift, ← hk] at hh
          exact hh
    simp only [waitSettleCounts]
    cases henv : env m.k with
    | err =>
      have hst : cmdStep env .TPX m
          = (none, { m with tr := m.tr ++ [.TPX, .TC], k := m.k + 2 }) := by
        unfold cmdStep; rw [henv]
      rw [hst]
      dsimp only
      exact hrec _ (by simp [settleStepK, henv]) (by simp [settleHit, settleSlot, settleStepK, henv])
    | ok vs =>
      have hst : cmdStep env .TPX m
          = (some vs, { m with tr := m.tr ++ [.TPX], k := m.k + 1 }) := by
        unfold cmdStep; rw [henv]
      rw [hst]
      dsimp only
      rcases hv : vs.head? with _ | cx <;> dsimp only
      · exact hrec _ (by simp [settleStepK, henv, hv])
          (by simp [settleHit, settleSlot, settleStepK, henv, hv])
      · cases henv2 : env (m.k + 1) with
        | err =>
          have hty : cmdStep env .TPY { m with tr := m.tr ++ [.TPX], k := m.k + 1 }
              = (none, { m with tr := (m.tr ++ [.TPX]) ++ [.TPY, .TC], k := m.k + 1 + 2 }) := by
            unfold cmdStep
            dsimp only
            rw [henv2]
          rw [hty]
          dsimp only
          exact hrec _ (by simp [settleStepK, henv, hv, henv2])
            (by simp [settleHit, settleSlot, settleStepK, henv, hv, henv2])
        | ok ws =>
          have hty : cmdStep env .TPY { m with tr := m.tr ++ [.TPX], k := m.k + 1 }
              = (some ws, { m with tr := (m.tr ++ [.TPX]) ++ [.TPY], k := m.k + 1 + 1 }) := by
            unfold cmdStep
            dsimp only
            rw [henv2]
          rw [hty]
          dsimp only
          rcases hw : ws.head? with _ | cy <;> dsimp only
          · exact hrec _ (by simp [settleStepK, henv, hv, henv2, hw])
              (by simp [settleHit, settleSlot, settleStepK, henv, hv, henv2, hw])
          · by_cases hcond : |cx - (tx : ℚ)| ≤ tol ∧ |cy - (ty : ℚ)| ≤ tol
            · rw [if_pos hcond]
              simp only [true_iff]
              refine ⟨0, Nat.succ_pos n, ?_⟩
              simp [settleHit, settleSlot, settleStepK, henv, hv, henv2, hw]
              exact hcond
            · rw [if_neg hcond]
              refine hrec _ (by simp [settleStepK, henv, hv, henv2, hw]) ?_
              simp [settleHit, settleSlot, settleStepK, henv, hv, henv2, hw]
              intro hc1
              by_contra hc2
              exact hcond ⟨hc1, not_lt.mp hc2⟩

/-- Appending the discovery suffix always changes the string. -/
theorem append_dashD_ne (ip : Str) : ip ++ dashD ≠ ip := by
  intro h
  have hlen := congrArg List.length h
  simp [dashD] at hlen

/-- Splitting the empty string gives no words. -/
theorem splitWs_nil : splitWs ([] : Str) = [] := by
  simp [splitWs, splitWsAux]

/-- Explicit form of the candidate list when the stripped descriptor has at
least one word: the descriptor, then the first word when different, then
the first word with `" -d"` appended when different from the descriptor. -/
theorem variants_eq (conn : Str) (ip : Str) (rest : List Str)
    (hp : splitWs (trimStr conn) = ip :: rest) :
    variants conn = [trimStr conn]
      ++ (if ip = trimStr conn then [] else [ip])
      ++ (if ip ++ dashD = trimStr conn then [] else [ip ++ dashD]) := by
  have hs : trimStr conn ≠ [] := by
    intro h0
    rw [h0, splitWs_nil] at hp
    exact absurd hp (by simp)
  unfold variants
  dsimp only
  rw [hp]
  dsimp only
  rw [if_neg hs]
  by_cases h1 : ip = trimStr conn
  · rw [if_pos (List.mem_singleton.mpr h1)]
    by_cases h2 : ip ++ dashD = trimStr conn
    · rw [if_pos (List.mem_singleton.mpr h2), if_pos h1, if_pos h2]
      try simp
    · rw [if_neg (fun hmem => h2 (List.mem_singleton.mp hmem)), if_pos h1, if_neg h2]
      try simp
  · rw [if_neg (fun hmem => h1 (List.mem_singleton.mp hmem))]
    by_cases h2 : ip ++ dashD = trimStr conn
    · rw [if_pos (List.mem_append.mpr (Or.inl (List.mem_singleton.mpr h2))),
        if_neg h1, if_pos h2]
      try simp
    · have hnm : ip ++ dashD ∉ ([trimStr conn] ++ [ip] : List Str) := by
        intro hmem
        rcases List.mem_append.mp hmem with hm | hm
        · exact h2 (List.mem_singleton.mp hm)
        · exact append_dashD_ne ip (List.mem_singleton.mp hm)
      rw [if_neg hnm, if_neg h1, if_neg h2]
      try simp

/-- The candidate list never contains duplicates. -/
theorem variants_nodup (conn : Str) : (variants conn).Nodup := by
  rcases hp : splitWs (trimStr conn) with _ | ⟨ip, rest⟩
  · unfold variants
    dsimp only
    rw [hp]
    dsimp only
    split <;> simp
  · rw [variants_eq conn ip rest hp]
    by_cases h1 : ip = trimStr conn <;> by_cases h2 : ip ++ dashD = trimStr conn
    · exact absurd (h2.trans h1.symm) (append_dashD_ne ip)
    · rw [if_pos h1, if_neg h2]
      have he : ([trimStr conn] ++ [] ++ [ip ++ dashD] : List Str)
          = [trimStr conn, ip ++ dashD] := by simp
      rw [he]
      refine List.nodup_cons.mpr ⟨?_, List.nodup_singleton _⟩
      intro hm
      exact h2 ((List.mem_singleton.mp hm).symm)
    · rw [if_neg h1, if_pos h2]
      have he : ([trimStr conn] ++ [ip] ++ [] : List Str) = [trimStr conn, ip] := by simp
      rw [he]
      refine List.nodup_cons.mpr ⟨?_, List.nodup_singleton _⟩
      intro hm
      exact h1 ((List.mem_singleton.mp hm).symm)
    · rw [if_neg h1, if_neg h2]
      have he : ([trimStr conn] ++ [ip] ++ [ip ++ dashD] : List Str)
          = [trimStr conn, ip, ip ++ dashD] := by simp
      rw [he]
      refine List.nodup_cons.mpr ⟨?_, List.nodup_cons.mpr ⟨?_, List.nodup_singleton _⟩⟩
      · intro hm
        rcases List.mem_cons.mp hm with hm | hm
        · exact h1 hm.symm
        · exact h2 ((List.mem_singleton.mp hm).symm)
      · intro hm
        exact append_dashD_ne ip ((List.mem_singleton.mp hm).symm)

/-- The last element of a cons list, in `getD` form. -/
theorem getLast?_cons_getD : ∀ (rest : List Str) (c : Str),
    (c :: rest).getLast? = some ((rest.getLast?).getD c) := by
  intro rest
  induction rest with
  | nil => intro c; rfl
  | cons d r ih =>
    intro c
    rw [List.getLast?_cons_cons, ih d]
    simp

/-- The connection loop stops at the first candidate that opens, after one
attempt/close/sleep block per failed candidate before it. -/
theorem connectLoop_success (openOk : ℕ → Bool) : ∀ (cs : List Str) (i j : ℕ)
    (hj : j < cs.length), (∀ l, l < j → openOk (i + l) = false) →
    openOk (i + j) = true →
    (connectLoop openOk cs i).1 = some (cs.get ⟨j, hj⟩) ∧
    (connectLoop openOk cs i).2.2 =
      (cs.take j).bind (fun c => [.attempt c, .closeHandle, .sleep200ms])
        ++ [.attempt (cs.get ⟨j, hj⟩)] := by
  intro cs
  induction cs with
  | nil => intro i j hj; exact absurd hj (by simp)
  | cons c rest ih =>
    intro i j hj hbefore hokj
    cases j with
    | zero =>
      have h0 : openOk i = true := by simpa using hokj
      simp [connectLoop, h0]
    | succ j =>
      have h0 : openOk i = false := by simpa using hbefore 0 (Nat.succ_pos j)
      have ih' := ih (i+1) j (by simpa using Nat.lt_of_succ_lt_succ hj)
        (fun l hl => by
          have hb := hbefore (l+1) (Nat.succ_lt_succ hl)
          rw [show i + (l+1) = i + 1 + l by omega] at hb
          exact hb)
        (by rw [show i + 1 + j = i + (j+1) by omega]; exact hokj)
      simp only [connectLoop, h0, Bool.false_eq_true, if_false]
      refine ⟨ih'.1, ?_⟩
      simp only [List.take_succ_cons, List.cons_bind, List.append_assoc]
      rw [ih'.2]
      simp

/-- When every candidate fails to open, the loop reports no winner, the
last failure is the last candidate, and every candidate got its
attempt/close/sleep block. -/
theorem connectLoop_exhaust (openOk : ℕ → Bool) : ∀ (cs : List Str) (i : ℕ),
    (∀ l, l < cs.length → openOk (i + l) = false) →
    connectLoop openOk cs i =
      (none, cs.getLast?, cs.bind (fun c => [.attempt c, .closeHandle, .sleep200ms])) := by
  intro cs
  induction cs with
  | nil => intro i h; rfl
  | cons c rest ih =>
    intro i hall
    have h0 : openOk i = false := by simpa using hall 0 (by simp)
    have ih' := ih (i+1) (fun l hl => by
      have hb := hall (l+1) (by simpa using Nat.succ_lt_succ hl)
      rw [show i + (l+1) = i + 1 + l by omega] at hb
      exact hb)
    simp only [connectLoop, h0, Bool.false_eq_true, if_false, ih']
    rw [getLast?_cons_getD]
    simp

/-- C1: on a real connection with streaming active and target counts
differing from the current counts, `move_absolute` does NOT issue the
claimed classic PA-then-BG sequence: because `_exit_pt` never clears
`self.streaming`, `_send_absolute_counts` takes its streaming branch, so
the issued trace is exit-PT (`ST`, `PT 0,0`), the `TP` readback pair,
`PA` with no `BG`, the `TP`-based settle poll (not the `MG` in-position
poll), and re-enter-PT — contradicting the code's own comments
("Use classic PA+BG for one-shot absolute moves", "# classic branch
inside"). -/
theorem c1_moveAbsolute_streaming_pa_without_bg :
    (moveAbsolute envOk0 1 1 90 true mReal).2.tr
      = [.ST, .PToff, .TPX, .TPY, .PA 10000 0, .TPX, .TPY, .ST, .PTon] ∧
    Cmd.BG ∉ (moveAbsolute envOk0 1 1 90 true mReal).2.tr ∧
    Cmd.MG ∉ (moveAbsolute envOk0 1 1 90 true mReal).2.tr ∧
    (moveAbsolute envOk0 1 1 90 true mReal).1 = some () := by
  norm_num [moveAbsolute, mReal, envOk0, exitPt, enterPt, cmdStep, sendAbsoluteCounts,
    tpReadPair, paThenSettle, waitSettleCounts, setPos, clip, pyRound,
    AZ_MIN, AZ_MAX, EL_MIN, EL_MAX, MIN_PA_DELTA]
  decide

/-- C2 counterexample: `move_absolute` does not clip the sky-elevation
input before the 90-degree conversion.  At `el_sky = 100` the code applies
`clip(100 - 90) = 10`, while the claimed clip-then-convert order would give
`clip(100) - 90 = 0`. -/
theorem c2_counterexample_elevation_clip_order :
    (moveAbsolute envErr 0 0 100 true mSim).2.s.curr_el = clip (100 - 90) EL_MIN EL_MAX ∧
    (moveAbsolute envErr 0 0 100 true mSim).2.s.curr_el ≠ clip 100 EL_MIN EL_MAX - 90 := by
  norm_num [moveAbsolute, mSim, setPos, clip, EL_MIN, EL_MAX]

/-- C5: on a real connection, a `move_relative` whose deltas convert to
counts below the 10-count deadband on both axes is a complete no-op:
no command is issued, no exception escapes, and the machine (state,
trace, environment cursor) is returned unchanged. -/
theorem c5_moveRelative_deadband_noop (env : Env) (fuel : ℕ) (dAz dEl : ℚ)
    (wait : Bool) (m : Mach) (hsim : m.s.sim = false)
    (hdx : |pyRound ((clip (m.s.curr_az + dAz) AZ_MIN AZ_MAX - m.s.curr_az) * m.s.cnt_az)|
      < MIN_PR_COUNTS)
    (hdy : |pyRound ((clip (m.s.curr_el + dEl) EL_MIN EL_MAX - m.s.curr_el) * m.s.cnt_el)|
      < MIN_PR_COUNTS) :
    moveRelative env fuel dAz dEl wait m = (some (), m) := by
  unfold moveRelative
  dsimp only
  rw [hsim]
  simp only [Bool.false_eq_true, if_false]
  rw [sendRelativeCounts_deadband env fuel _ _ wait m hdx hdy]

/-- C5 witness: a 0.0005-degree relative move (5 counts on each axis) on a
real streaming connection issues nothing and leaves the machine unchanged. -/
theorem c5_witness : moveRelative envOk0 1 (5/10000) (5/10000) true mReal = (some (), mReal) :=
  c5_moveRelative_deadband_noop envOk0 1 (5/10000) (5/10000) true mReal rfl
    (by norm_num [mReal, clip, pyRound, AZ_MIN, AZ_MAX, MIN_PR_COUNTS])
    (by norm_num [mReal, clip, pyRound, EL_MIN, EL_MAX, MIN_PR_COUNTS])

/-- C6 counterexample: the position persisted at shutdown is NOT reproduced
as the next controller's azimuth: closing at azimuth 5 writes `(5, 7, 0)`,
but the next (simulation) construction initializes `curr_az` to `0`,
loading the persisted triple only into `curr_pos`. -/
theorem c6_counterexample_position_not_restored :
    (initSimState ((closeCtl envErr mSim57).2) true 10000 10000).curr_az
      ≠ mSim57.s.curr_az := by
  norm_num [initSimState, closeCtl, mSim57, safeSavePos, safeLoadPos]

/-- C8: both completion pollers are total boolean functions (they cannot
raise): each returns `True` exactly when some iteration within the fuel
observes its condition — both in-position flags at least 1, or both axes
within tolerance of the target counts — with failed queries counted as
"not yet satisfied" and polling continuing; and on exhausted fuel
(timeout) each returns `False`. -/
theorem c8_pollers_timeout_and_instant_success (env : Env) (tx ty : ℤ)
    (tol : ℚ) (n : ℕ) (m : Mach) :
    ((waitInpos env n m).1 = true ↔ ∃ j, j < n ∧ inposHit env m.k j = true) ∧
    ((waitSettleCounts env tx ty tol n m).1 = true ↔
      ∃ j, j < n ∧ settleHit env tx ty tol m.k j = true) ∧
    (waitInpos env 0 m).1 = false ∧
    (waitSettleCounts env tx ty tol 0 m).1 = false :=
  ⟨waitInpos_true_iff env n m, waitSettleCounts_true_iff env tx ty tol n m, rfl, rfl⟩

/-- C10: every public movement operation (`move_absolute`, `move_relative`,
`degSteer`, `go_home`, `stop`) preserves the state invariant: azimuth in
`[AZ_MIN, AZ_MAX]`, elevation in `[EL_MIN, EL_MAX]`, and the position
vector equal to `(curr_az, curr_el, 0)` — whether or not any command was
issued, and also on exception paths. -/
theorem c10_ops_preserve_invariant (env : Env) (fuel : ℕ) (op : Op) (m : Mach)
    (hinv : Inv m.s) : Inv ((runOp env fuel op m).2).s := by
  cases op with
  | mvAbs az el w => exact moveAbsolute_inv env fuel az el w m hinv
  | mvRel dAz dEl w => exact moveRelative_inv env fuel dAz dEl w m hinv
  | steer az el ab w => exact degSteer_inv env fuel az el ab w m hinv
  | home w => exact goHome_inv env fuel w m hinv
  | halt => exact stopCmd_inv env m hinv

/-- C10 witness: a clipped out-of-range absolute move on the simulation
machine keeps the invariant. -/
theorem c10_witness : Inv ((runOp envOk0 1 (Op.mvAbs 95 200 true) mSim).2).s :=
  c10_ops_preserve_invariant envOk0 1 (Op.mvAbs 95 200 true) mSim
    (by norm_num [Inv, mSim, AZ_MIN, AZ_MAX, EL_MIN, EL_MAX])

/-- Commands appended by a transient `_exit_pt` are among `ST`, `PT 0,0`,
`TC`. -/
theorem exitPtIf_tr_mem (env : Env) (b : Bool) (m : Mach) (x : Cmd)
    (hx : x ∈ ((if b then exitPt env m else m)).tr) :
    x ∈ m.tr ∨ x = .ST ∨ x = .PToff ∨ x = .TC := by
  cases b
  · exact Or.inl hx
  · exact exitPt_tr_mem env m x (by simpa using hx)

/-- Commands appended by a transient `_enter_pt` are among `ST`, `PT 1,1`,
`TC`. -/
theorem enterPtIf_tr_mem (env : Env) (b : Bool) (m : Mach) (x : Cmd)
    (hx : x ∈ ((if b then enterPt env m else m)).tr) :
    x ∈ m.tr ∨ x = .ST ∨ x = .PTon ∨ x = .TC := by
  cases b
  · exact Or.inl hx
  · exact enterPt_tr_mem env m x (by simpa using hx)

/-- C6 amended: the triple persisted at shutdown reloads verbatim (it is
exactly the closing `curr_pos`), and a subsequent simulation construction
places it in `curr_pos` only, while `curr_az` and `curr_el` are
initialized to zero rather than from the persisted position. -/
theorem c6_amended_currpos_roundtrip (env : Env) (m : Mach) (streaming : Bool)
    (ca ce : ℚ) :
    safeLoadPos ((closeCtl env m).2) = ((closeCtl env m).1).s.curr_pos ∧
    (initSimState ((closeCtl env m).2) streaming ca ce).curr_pos
      = ((closeCtl env m).1).s.curr_pos ∧
    (initSimState ((closeCtl env m).2) streaming ca ce).curr_az = 0 ∧
    (initSimState ((closeCtl env m).2) streaming ca ce).curr_el = 0 := by
  unfold closeCtl
  split
  · exact ⟨rfl, rfl, rfl, rfl⟩
  · exact ⟨rfl, rfl, rfl, rfl⟩

/-- C3: if enabling streaming fails (either exchange of `_enter_pt`
raises), the session flag is cleared; and once the flag is off, every
public movement operation leaves it off and never issues `PT 1,1` — the
session stays in classic mode for good. -/
theorem c3_streaming_failure_is_permanent (env env2 : Env) (fuel : ℕ) (op : Op)
    (m m2 : Mach) (hfail : enterPtFails env m) (hs : m2.s.streaming = false) :
    (enterPt env m).s.streaming = false ∧
    ((runOp env2 fuel op m2).2).s.streaming = false ∧
    (Cmd.PTon ∈ ((runOp env2 fuel op m2).2).tr → Cmd.PTon ∈ m2.tr) := by
  refine ⟨enterPt_fail_clears_streaming env m hfail, ?_, ?_⟩
  · cases op with
    | mvAbs az el w => exact (moveAbsolute_noStream env2 fuel az el w m2 hs).1
    | mvRel dAz dEl w => exact (moveRelative_noStream env2 fuel dAz dEl w m2 hs).1
    | steer az el ab w => exact (degSteer_noStream env2 fuel az el ab w m2 hs).1
    | home w => exact (moveAbsolute_noStream env2 fuel 0 90 w m2 hs).1
    | halt => exact (stopCmd_noStream env2 m2 hs).1
  · cases op with
    | mvAbs az el w => exact (moveAbsolute_noStream env2 fuel az el w m2 hs).2
    | mvRel dAz dEl w => exact (moveRelative_noStream env2 fuel dAz dEl w m2 hs).2
    | steer az el ab w => exact (degSteer_noStream env2 fuel az el ab w m2 hs).2
    | home w => exact (moveAbsolute_noStream env2 fuel 0 90 w m2 hs).2
    | halt => exact (stopCmd_noStream env2 m2 hs).2

/-- C3 witness: a failing `PT` enable clears the flag, and a later absolute
move from a classic-mode machine issues no `PT 1,1`. -/
theorem c3_witness :
    (enterPt envErr mReal).s.streaming = false ∧
    ((runOp envOk0 1 (Op.mvAbs 5 100 true) mClassic).2).s.streaming = false ∧
    (Cmd.PTon ∈ ((runOp envOk0 1 (Op.mvAbs 5 100 true) mClassic).2).tr →
      Cmd.PTon ∈ mClassic.tr) :=
  c3_streaming_failure_is_permanent envErr envOk0 1 (Op.mvAbs 5 100 true) mReal mClassic
    (Or.inl rfl) rfl

/-- C7: connection establishment builds the ordered de-duplicated candidate
list (descriptor, address word, address word + `" -d"`), tries each in
order with a close and a 200 ms sleep after each failed attempt, succeeds
on the first candidate that opens, and raises a connection failure carrying
the full candidate list and the last underlying failure only when all
candidates are exhausted. -/
theorem c7_connection_candidates_and_retry (conn : Str) (openOk : ℕ → Bool) :
    (variants conn).Nodup ∧
    (∀ ip rest, splitWs (trimStr conn) = ip :: rest →
      variants conn = [trimStr conn] ++ (if ip = trimStr conn then [] else [ip])
        ++ (if ip ++ dashD = trimStr conn then [] else [ip ++ dashD])) ∧
    (∀ j (hj : j < (variants conn).length), (∀ l, l < j → openOk l = false) →
      openOk j = true →
      gconnect openOk conn = .ok ((variants conn).get ⟨j, hj⟩,
        ((variants conn).take j).bind (fun c => [.attempt c, .closeHandle, .sleep200ms])
          ++ [.attempt ((variants conn).get ⟨j, hj⟩)])) ∧
    ((∀ l, l < (variants conn).length → openOk l = false) →
      gconnect openOk conn = .error (variants conn, (variants conn).getLast?)) := by
  refine ⟨variants_nodup conn, fun ip rest hp => variants_eq conn ip rest hp, ?_, ?_⟩
  · intro j hj hbef hok
    have hcs := connectLoop_success openOk (variants conn) 0 j hj
      (fun l hl => by simpa using hbef l hl) (by simpa using hok)
    unfold gconnect
    dsimp only
    rcases hcl : connectLoop openOk (variants conn) 0 with ⟨r, le, evs⟩
    rw [hcl] at hcs
    dsimp only at hcs
    rw [hcs.1]
    dsimp only
    rw [hcs.2]
  · intro hall
    have hce := connectLoop_exhaust openOk (variants conn) 0
      (fun l hl => by simpa using hall l hl)
    unfold gconnect
    dsimp only
    rw [hce]

/-- C2 amended: `move_absolute` clips the raw azimuth to
`[AZ_MIN, AZ_MAX]`, but for elevation it first subtracts 90 degrees
(sky to gimbal) and only then clips: the applied elevation target is
`clip(el_sky - 90)`, not `clip(el_sky) - 90`.  Any `PA` it issues carries
exactly the counts of those clipped targets, and an out-of-range azimuth
is never applied raw. -/
theorem c2_amended_clip_after_sky_conversion (env : Env) (fuel : ℕ) (az el : ℚ)
    (wait : Bool) (m : Mach) :
    (m.s.sim = true →
      (moveAbsolute env fuel az el wait m).2.s.curr_az = clip az AZ_MIN AZ_MAX ∧
      (moveAbsolute env fuel az el wait m).2.s.curr_el = clip (el - 90) EL_MIN EL_MAX) ∧
    (∀ a b, Cmd.PA a b ∈ ((moveAbsolute env fuel az el wait m).2).tr →
      Cmd.PA a b ∈ m.tr ∨
      (a = pyRound (clip az AZ_MIN AZ_MAX * m.s.cnt_az) ∧
       b = pyRound (clip (el - 90) EL_MIN EL_MAX * m.s.cnt_el))) ∧
    (AZ_MAX < az → clip az AZ_MIN AZ_MAX ≠ az) ∧
    (az < AZ_MIN → clip az AZ_MIN AZ_MAX ≠ az) := by
  refine ⟨?_, ?_, ?_, ?_⟩
  · intro hsim
    unfold moveAbsolute
    dsimp only
    rw [if_pos hsim]
    exact ⟨rfl, rfl⟩
  · intro a b hx
    unfold moveAbsolute at hx
    dsimp only at hx
    by_cases hsim : m.s.sim = true
    · rw [if_pos hsim] at hx
      exact Or.inl (by simpa [setPos] using hx)
    · rw [if_neg hsim] at hx
      split at hx
      · exact Or.inl hx
      · rcases h : sendAbsoluteCounts env fuel
            (pyRound (clip az AZ_MIN AZ_MAX * m.s.cnt_az))
            (pyRound (clip (el - 90) EL_MIN EL_MAX * m.s.cnt_el)) wait
            (if m.s.streaming = true then exitPt env m else m) with ⟨o, m2⟩
        rw [h] at hx
        have hmem2 : Cmd.PA a b ∈ m2.tr → Cmd.PA a b ∈ m.tr ∨
            (a = pyRound (clip az AZ_MIN AZ_MAX * m.s.cnt_az) ∧
             b = pyRound (clip (el - 90) EL_MIN EL_MAX * m.s.cnt_el)) := by
          intro hm
          rcases sendAbsoluteCounts_tr_mem env fuel _ _ wait _ (Cmd.PA a b)
              (by rw [h]; exact hm) with h' | h' | h' | h' | h' | h' | h'
          · rcases exitPtIf_tr_mem env m.s.streaming m (Cmd.PA a b) h' with
              h2 | h2 | h2 | h2
            · exact Or.inl h2
            all_goals exact absurd h2 (by simp)
          · right
            exact ⟨by injection h', by injection h'⟩
          all_goals exact absurd h' (by simp)
        cases o with
        | none => exact hmem2 hx
        | some bb =>
          have hx2 : Cmd.PA a b ∈ ((if m.s.streaming = true then enterPt env m2 else m2)).tr := by
            simpa [setPos] using hx
          rcases enterPtIf_tr_mem env m.s.streaming m2 (Cmd.PA a b) hx2 with
            h2 | h2 | h2 | h2
          · exact hmem2 h2
          all_goals exact absurd h2 (by simp)
  · intro h
    have hc : clip az AZ_MIN AZ_MAX = AZ_MAX := by
      unfold clip
      rw [min_eq_left h.le, max_eq_right az_min_le_max]
    rw [hc]
    exact ne_of_lt h
  · intro h
    have hc : clip az AZ_MIN AZ_MAX = AZ_MIN := by
      unfold clip
      rw [min_eq_right (h.le.trans az_min_le_max), max_eq_left h.le]
    rw [hc]
    exact ne_of_gt h

/-- C9: `degSteer` with `absolute=False` clips each relative delta argument
to the absolute axis limits before converting it to a counts delta: any
`PR` it issues carries `pyRound(clip(arg) * cnt)` per axis (zeroed below
the deadband), a step beyond a limit is silently truncated to the limit,
and in simulation the resulting position is clipped again after the delta
is applied. -/
theorem c9_degSteer_relative_clips_delta (env : Env) (fuel : ℕ) (azG elG : ℚ)
    (wait : Bool) (m : Mach) :
    (m.s.sim = true →
      (degSteer env fuel azG elG false wait m).2.s.curr_az
        = clip (m.s.curr_az + clip azG AZ_MIN AZ_MAX) AZ_MIN AZ_MAX ∧
      (degSteer env fuel azG elG false wait m).2.s.curr_el
        = clip (m.s.curr_el + clip elG EL_MIN EL_MAX) EL_MIN EL_MAX) ∧
    (∀ a b, Cmd.PR a b ∈ ((degSteer env fuel azG elG false wait m).2).tr →
      Cmd.PR a b ∈ m.tr ∨
      (a = (if MIN_PR_COUNTS ≤ |pyRound (clip azG AZ_MIN AZ_MAX * m.s.cnt_az)| then
              pyRound (clip azG AZ_MIN AZ_MAX * m.s.cnt_az) else 0) ∧
       b = (if MIN_PR_COUNTS ≤ |pyRound (clip elG EL_MIN EL_MAX * m.s.cnt_el)| then
              pyRound (clip elG EL_MIN EL_MAX * m.s.cnt_el) else 0))) ∧
    (AZ_MAX < azG → clip azG AZ_MIN AZ_MAX = AZ_MAX) ∧
    (azG < AZ_MIN → clip azG AZ_MIN AZ_MAX = AZ_MIN) := by
  refine ⟨?_, ?_, ?_, ?_⟩
  · intro hsim
    unfold degSteer
    dsimp only
    rw [if_pos hsim]
    simp only [Bool.false_eq_true, if_false]
    exact ⟨rfl, rfl⟩
  · intro a b hx
    unfold degSteer at hx
    dsimp only at hx
    by_cases hsim : m.s.sim = true
    · rw [if_pos hsim] at hx
      simp only [Bool.false_eq_true, if_false] at hx
      exact Or.inl (by simpa [setPos] using hx)
    · rw [if_neg hsim] at hx
      simp only [Bool.false_eq_true, if_false] at hx
      rcases h : sendRelativeCounts env fuel
          (pyRound (clip azG AZ_MIN AZ_MAX * m.s.cnt_az))
          (pyRound (clip elG EL_MIN EL_MAX * m.s.cnt_el)) wait
          (if m.s.streaming = true then exitPt env m else m) with ⟨o, m2⟩
      rw [h] at hx
      have hmem2 : Cmd.PR a b ∈ m2.tr → Cmd.PR a b ∈ m.tr ∨
          (a = (if MIN_PR_COUNTS ≤ |pyRound (clip azG AZ_MIN AZ_MAX * m.s.cnt_az)| then
                  pyRound (clip azG AZ_MIN AZ_MAX * m.s.cnt_az) else 0) ∧
           b = (if MIN_PR_COUNTS ≤ |pyRound (clip elG EL_MIN EL_MAX * m.s.cnt_el)| then
                  pyRound (clip elG EL_MIN EL_MAX * m.s.cnt_el) else 0)) := by
        intro hm
        rcases sendRelativeCounts_tr_mem env fuel _ _ wait _ (Cmd.PR a b)
            (by rw [h]; exact hm) with h' | h' | h' | h' | h' | h' | h' | h'
        · rcases exitPtIf_tr_mem env m.s.streaming m (Cmd.PR a b) h' with
            h2 | h2 | h2 | h2
          · exact Or.inl h2
          all_goals exact absurd h2 (by simp)
        · right
          exact ⟨by injection h', by injection h'⟩
        all_goals exact absurd h' (by simp)
      cases o with
      | none => exact hmem2 hx
      | some moved =>
        have hx2 : Cmd.PR a b ∈ ((if m.s.streaming = true then enterPt env
            (if moved = true then
              { m2 with s := { m2.s with
                  curr_az := clip (m2.s.curr_az
                    + (pyRound (clip azG AZ_MIN AZ_MAX * m.s.cnt_az) : ℚ) / m2.s.cnt_az)
                    AZ_MIN AZ_MAX,
                  curr_el := clip (m2.s.curr_el
                    + (pyRound (clip elG EL_MIN EL_MAX * m.s.cnt_el) : ℚ) / m2.s.cnt_el)
                    EL_MIN EL_MAX } }
             else m2)
          else (if moved = true then
              { m2 with s := { m2.s with
                  curr_az := clip (m2.s.curr_az
                    + (pyRound (clip azG AZ_MIN AZ_MAX * m.s.cnt_az) : ℚ) / m2.s.cnt_az)
                    AZ_MIN AZ_MAX,
                  curr_el := clip (m2.s.curr_el
                    + (pyRound (clip elG EL_MIN EL_MAX * m.s.cnt_el) : ℚ) / m2.s.cnt_el)
                    EL_MIN EL_MAX } }
             else m2))).tr := by
          simpa [setPosOnly] using hx
        have hx3 : Cmd.PR a b ∈ m2.tr ∨ Cmd.PR a b = .ST ∨ Cmd.PR a b = .PTon ∨
            Cmd.PR a b = .TC := by
          rcases enterPtIf_tr_mem env m.s.streaming _ (Cmd.PR a b) hx2 with
            h2 | h2 | h2 | h2
          · cases moved with
            | false => exact Or.inl (by simpa using h2)
            | true => exact Or.inl (by simpa using h2)
          all_goals tauto
        rcases hx3 with h2 | h2 | h2 | h2
        · exact hmem2 h2
        all_goals exact absurd h2 (by simp)
  · intro h
    unfold clip
    rw [min_eq_left h.le, max_eq_right az_min_le_max]
  · intro h
    unfold clip
    rw [min_eq_right (h.le.trans az_min_le_max), max_eq_left h.le]

/-- C4: on a real connection with streaming active, a `degSteer`
(`absolute=True`) whose candidate target counts differ from the state
counts but lie within the 6-count `MIN_PA_DELTA` threshold of the
controller's `TP` readback on both axes issues no `PA` — only the two `TP`
reads appear on the wire — while the in-memory state still updates to the
clipped target. -/
theorem c4_degSteer_suppresses_small_pa (env : Env) (fuel : ℕ) (azG elG : ℚ)
    (wait : Bool) (m : Mach) (cx cy : ℚ) (lx ly : List ℚ)
    (hsim : m.s.sim = false) (hstr : m.s.streaming = true)
    (hne : ¬(pyRound (clip azG AZ_MIN AZ_MAX * m.s.cnt_az)
              = pyRound (m.s.curr_az * m.s.cnt_az) ∧
            pyRound (clip elG EL_MIN EL_MAX * m.s.cnt_el)
              = pyRound (m.s.curr_el * m.s.cnt_el)))
    (hx : env m.k = .ok (cx :: lx)) (hy : env (m.k + 1) = .ok (cy :: ly))
    (hdx : |(pyRound (clip azG AZ_MIN AZ_MAX * m.s.cnt_az) : ℚ) - cx| < MIN_PA_DELTA)
    (hdy : |(pyRound (clip elG EL_MIN EL_MAX * m.s.cnt_el) : ℚ) - cy| < MIN_PA_DELTA) :
    (degSteer env fuel azG elG true wait m).1 = some () ∧
    ((degSteer env fuel azG elG true wait m).2).tr = m.tr ++ [.TPX, .TPY] ∧
    ((degSteer env fuel azG elG true wait m).2).s.curr_az = clip azG AZ_MIN AZ_MAX ∧
    ((degSteer env fuel azG elG true wait m).2).s.curr_el = clip elG EL_MIN EL_MAX := by
  have h1 : cmdStep env .TPX m
      = (some (cx :: lx), { m with tr := m.tr ++ [.TPX], k := m.k + 1 }) := by
    unfold cmdStep; rw [hx]
  have h2 : cmdStep env .TPY { m with tr := m.tr ++ [.TPX], k := m.k + 1 }
      = (some (cy :: ly), { m with tr := (m.tr ++ [.TPX]) ++ [.TPY], k := m.k + 1 + 1 }) := by
    unfold cmdStep
    dsimp only
    rw [hy]
  have htp : tpReadPair env m
      = (some (cx, cy), { m with tr := (m.tr ++ [.TPX]) ++ [.TPY], k := m.k + 1 + 1 }) := by
    unfold tpReadPair
    rw [h1]
    dsimp only
    rw [h2]
    rfl
  have hsend : sendAbsoluteCounts env fuel
      (pyRound (clip azG AZ_MIN AZ_MAX * m.s.cnt_az))
      (pyRound (clip elG EL_MIN EL_MAX * m.s.cnt_el)) wait m
      = (some false, { m with tr := (m.tr ++ [.TPX]) ++ [.TPY], k := m.k + 1 + 1 }) := by
    unfold sendAbsoluteCounts
    rw [if_pos hstr, htp]
    dsimp only
    rw [if_pos ⟨hdx, hdy⟩]
  unfold degSteer
  dsimp only
  rw [hsim]
  simp only [Bool.false_eq_true, if_false]
  rw [if_neg hne, hsend]
  dsimp only
  refine ⟨rfl, ?_, rfl, rfl⟩
  simp [setPos]

/-- C4 witness: a 3-count target step with the controller reading back 0 on
both axes is suppressed (only the two `TP` reads are issued) while the
state still moves to 0.0003 degrees. -/
theorem c4_witness :
    (degSteer envOk0 1 (3/10000) 0 true false mReal).1 = some () ∧
    ((degSteer envOk0 1 (3/10000) 0 true false mReal).2).tr = mReal.tr ++ [.TPX, .TPY] ∧
    ((degSteer envOk0 1 (3/10000) 0 true false mReal).2).s.curr_az
      = clip (3/10000) AZ_MIN AZ_MAX ∧
    ((degSteer envOk0 1 (3/10000) 0 true false mReal).2).s.curr_el
      = clip 0 EL_MIN EL_MAX :=
  c4_degSteer_suppresses_small_pa envOk0 1 (3/10000) 0 false mReal 0 0 [] []
    rfl rfl
    (by norm_num [mReal, clip, pyRound, AZ_MIN, AZ_MAX, EL_MIN, EL_MAX])
    rfl rfl
    (by norm_num [mReal, clip, pyRound, AZ_MIN, AZ_MAX, MIN_PA_DELTA])
    (by norm_num [mReal, clip, pyRound, EL_MIN, EL_MAX, MIN_PA_DELTA])

end Gimbal
